import Mathlib

/-!
# XPTI event notifier and registry of the SYCL runtime

A shallow embedding of

* `sycl/source/detail/xpti_event_notifier.hpp`: the wrappers installed over a
  plugin's `piEnqueueKernelLaunch` and `piQueueCreate`, `wrapAPIs`, and one
  iteration of the worker loop that polls the pending queue `MQueue`;
* `sycl/source/detail/xpti_registry.hpp`: `XPTIRegistry::formatHelper::format`,
  `XPTIRegistry::log`, `initializeStream` and the destructor;
* `sycl/tools/sycl-trace/main.cpp`: the environment the launcher builds;
* `sycl/tools/sycl-trace/collector.cpp`: the reading of the log mask and the
  filter of `logCallback`.

The plugin functions captured by `wrapAPIs` are external: they appear as
parameters.  Calls that leave the notifier (status query, subscriber
notification, retain, release) are recorded, oldest first, in a log that is
carried next to `MQueue`.
-/

namespace SyclXpti

/-! ## Data model of `XPTIEventNotifier` -/

/-- The backends for which `initPIOverrides` instantiates `wrapAPIs`. -/
inductive backend where
  | opencl
  | ext_oneapi_level_zero
  | ext_oneapi_cuda
  | ext_oneapi_hip
  | ext_intel_esimd_emulator
  deriving DecidableEq, Repr

/-- A `pi_event`: an opaque handle issued by a plugin. -/
abbrev pi_event := Nat

/-- A `pi_result` as returned by a plugin entry point. -/
abbrev pi_result := Int

/-- Modelled from the spec: the success value of `pi_result`; `pi.h`, which
declares it, is not among the sources.  Every other value is a failure. -/
def PI_SUCCESS : pi_result := 0

/-- Modelled from the spec: the terminal execution status of an event, the
value `PI_EVENT_COMPLETE` of `pi.h`, which is not among the sources. -/
def PI_EVENT_COMPLETE : Int := 0

/-- The four `pi_profiling_info` parameters the worker asks for. -/
inductive pi_profiling_info where
  | PI_PROFILING_INFO_COMMAND_QUEUED
  | PI_PROFILING_INFO_COMMAND_SUBMIT
  | PI_PROFILING_INFO_COMMAND_START
  | PI_PROFILING_INFO_COMMAND_END
  deriving DecidableEq, Repr

/-- The record `XPTIEventNotifier::EventInfo`. -/
structure EventInfo where
  Backend : backend
  Event : pi_event
  KernelName : Option String
  deriving DecidableEq, Repr

/-- A metadata value attached with `xpti::addMetadata`. -/
inductive MetaValue where
  | text (s : String)
  | u64 (v : Nat)
  deriving DecidableEq, Repr

/-- The trace event built by the worker: the name given to `xptiMakeEvent`
and the metadata in the order it was attached. -/
structure TraceEvent where
  Name : String
  Metadata : List (String × MetaValue)
  deriving DecidableEq, Repr

/-- A call that leaves the notifier. -/
inductive Call where
  /-- The call `MEventRetain[Backend](Event)`. -/
  | retain (Backend : backend) (Event : pi_event)
  /-- The call `MEventGetInfo[Backend](Event, PI_EVENT_INFO_COMMAND_EXECUTION_STATUS, ..)`
  together with the value found in `Status` afterwards. -/
  | getStatus (Backend : backend) (Event : pi_event) (Status : Int)
  /-- The call `xptiNotifySubscribers(GEventsStreamID, xpti::trace_signal, nullptr, Event, ID, nullptr)`. -/
  | notify (Event : TraceEvent)
  /-- The call `MEventRelease[Backend](Event)`. -/
  | release (Backend : backend) (Event : pi_event)
  deriving DecidableEq, Repr

/-- The mutable part of `XPTIEventNotifier`: the vector `MQueue`, and the
calls made so far (oldest first). -/
structure Notifier where
  MQueue : List EventInfo
  Calls : List Call
  deriving DecidableEq, Repr

/-- The notifier before any call: empty queue, nothing called. -/
def Notifier.init : Notifier := ⟨[], []⟩

/-- The plugin functions the worker reads from the maps filled by `wrapAPIs`,
as they answer during one pass over `MQueue`.  The first argument `k` is the
position in `MQueue` of the entry the worker is at: what a plugin answers for
a handle may change from one query to the next.
`piEventGetInfo k b e` is the content of `Status` after the query;
`piEventGetProfilingInfo k b e p t` is the content of `Timestamp` after the
query when it held `t` before. -/
structure PiTable where
  piEventGetInfo : Nat → backend → pi_event → Int
  piEventGetProfilingInfo : Nat → backend → pi_event → pi_profiling_info → Nat → Nat

/-! ## The wrapper `piEnqueueKernelLaunch<Backend>` -/

/-- The wrapper over the captured `piEnqueueKernelLaunch`.  `MEnqueueKernel`
is the captured original; applied to the backend and the call's arguments it
gives the result and the content of `*event` afterwards.  `xptiTraceEnabled`
is the value of `xptiTraceEnabled()` at the call.  `Res` is returned on both
paths and is not tested. -/
def piEnqueueKernelLaunch {α : Type} (MEnqueueKernel : backend → α → pi_result × pi_event)
    (xptiTraceEnabled : Bool) (Backend : backend) (args : α) (N : Notifier) :
    pi_result × Notifier :=
  let Res := (MEnqueueKernel Backend args).1
  let event := (MEnqueueKernel Backend args).2
  if !xptiTraceEnabled then
    (Res, N)
  else
    (Res, { MQueue := N.MQueue ++ [⟨Backend, event, none⟩],
            Calls := N.Calls ++ [Call.retain Backend event] })

/-! ## The worker loop -/

/-- The trace event the worker builds for a completed entry: `xptiMakeEvent`
with the name `event_status`, the kernel name if there is one, and the four
timestamps, each query starting from what the previous one left in
`Timestamp`. -/
def makeTraceEvent (T : PiTable) (k : Nat) (Info : EventInfo) : TraceEvent :=
  let kernel : List (String × MetaValue) :=
    match Info.KernelName with
    | some n => [("kernel_name", MetaValue.text n)]
    | none => []
  let t0 : Nat := 0
  let t1 := T.piEventGetProfilingInfo k Info.Backend Info.Event
    pi_profiling_info.PI_PROFILING_INFO_COMMAND_QUEUED t0
  let t2 := T.piEventGetProfilingInfo k Info.Backend Info.Event
    pi_profiling_info.PI_PROFILING_INFO_COMMAND_SUBMIT t1
  let t3 := T.piEventGetProfilingInfo k Info.Backend Info.Event
    pi_profiling_info.PI_PROFILING_INFO_COMMAND_START t2
  let t4 := T.piEventGetProfilingInfo k Info.Backend Info.Event
    pi_profiling_info.PI_PROFILING_INFO_COMMAND_END t3
  { Name := "event_status",
    Metadata := kernel ++ [("event_queued", MetaValue.u64 t1),
                           ("event_submit", MetaValue.u64 t2),
                           ("event_start", MetaValue.u64 t3),
                           ("event_end", MetaValue.u64 t4)] }

/-- The predicate handed to `std::remove_if`: the calls it makes on one entry
and its verdict (`true`: the entry is to be removed).  The source names the
lambda's parameter `Info` and in three places writes the type name instead
(`MEventGetInfo[EventInfo.Backend]`, `EventInfo.KernelName`); it is read as
`Info` throughout.  The results of the plugin calls are not looked at. -/
def removePred (T : PiTable) (k : Nat) (Info : EventInfo) : List Call × Bool :=
  let Status := T.piEventGetInfo k Info.Backend Info.Event
  if Status = PI_EVENT_COMPLETE then
    ([Call.getStatus Info.Backend Info.Event Status,
      Call.notify (makeTraceEvent T k Info),
      Call.release Info.Backend Info.Event], true)
  else
    ([Call.getStatus Info.Backend Info.Event Status], false)

/-- The pass `std::remove_if` followed by `MQueue.erase(It, MQueue.end())`,
made under `MLock`: the predicate is applied once to every entry, front to
back; the entries it rejects are kept in their order.  The second component
is the log of calls, `Calls` on entry, extended by the calls of the
predicate; `k` is the position in `MQueue` of the first entry still to
visit. -/
def removeIfErase (T : PiTable) : Nat → List EventInfo → List Call → List EventInfo × List Call
  | _, [], Calls => ([], Calls)
  | k, Info :: rest, Calls =>
    let r := removePred T k Info
    let out := removeIfErase T (k + 1) rest (Calls ++ r.1)
    if r.2 then out else (Info :: out.1, out.2)

/-- One iteration of the worker loop `while (!MStopped)`: nothing but a
yield when `xptiTraceEnabled()` is false, otherwise one pass over `MQueue`. -/
def workerIteration (xptiTraceEnabled : Bool) (T : PiTable) (N : Notifier) : Notifier :=
  if !xptiTraceEnabled then
    N
  else
    let r := removeIfErase T 0 N.MQueue N.Calls
    { MQueue := r.1, Calls := r.2 }

/-! ## Runs of the notifier -/

/-- One thing that happens to the notifier: a call of the wrapper, given by
what the original returned and left in `*event`, or one iteration of the
worker loop, given by the plugin answers during it. -/
inductive Step where
  | enqueue (xptiTraceEnabled : Bool) (Backend : backend) (Res : pi_result) (event : pi_event)
  | poll (xptiTraceEnabled : Bool) (T : PiTable)

/-- The value of `xptiTraceEnabled()` during a step. -/
def Step.traceEnabled : Step → Bool
  | Step.enqueue t _ _ _ => t
  | Step.poll t _ => t

/-- The notifier after one step. -/
def Step.apply (N : Notifier) : Step → Notifier
  | Step.enqueue t b Res event =>
    (piEnqueueKernelLaunch (fun _ (_ : Unit) => (Res, event)) t b () N).2
  | Step.poll t T => workerIteration t T N

/-- The notifier after a sequence of steps, the mutex `MLock` making each
step atomic. -/
def run (steps : List Step) (N : Notifier) : Notifier :=
  steps.foldl Step.apply N

/-! ## `XPTIRegistry::formatHelper` and `XPTIRegistry::log` -/

/-- Text: the characters of a `std::string_view` or `std::string`. -/
abbrev Text := List Char

/-- The pattern `{}` searched by `formatHelper::format`. -/
def placeholder : Text := ['{', '}']

/-- Whether `pat` stands at the front of `s`. -/
def startsWith : Text → Text → Bool
  | [], _ => true
  | _ :: _, [] => false
  | p :: ps, c :: cs => p == c && startsWith ps cs

/-- The search of `std::string_view::find` in the text that is left from
position `i` on: the first position at which `pat` stands, `none` for `npos`. -/
def findFrom (pat : Text) : Text → Nat → Option Nat
  | [], i => if pat.isEmpty then some i else none
  | c :: cs, i => if startsWith pat (c :: cs) then some i else findFrom pat cs (i + 1)

/-- The call `s.find(pat, pos)` of `std::string_view`: `none` for `npos`. -/
def find (s pat : Text) (pos : Nat) : Option Nat :=
  if pos > s.length then none else findFrom pat (s.drop pos) pos

/-- The call `s.substr(pos, count)` of `std::string_view`, `count = none`
for `npos`; the result `none` is the exception `std::out_of_range`. -/
def substr (s : Text) (pos : Nat) (count : Option Nat) : Option Text :=
  if pos > s.length then none
  else
    match count with
    | none => some (s.drop pos)
    | some n => some ((s.drop pos).take n)

/-- An argument of `log`: `format` is a template over the argument types and
only writes `Stream << Arg`; these are the integer and the string case. -/
inductive LogArg where
  | int (v : Int)
  | text (s : Text)
  deriving DecidableEq, Repr

/-- What `Stream << Arg` appends to the stream. -/
def LogArg.str : LogArg → Text
  | LogArg.int v => (toString v).toList
  | LogArg.text s => s

/-- The three specialisations of `formatHelper<ArgsT...>::format` as one
function over the list of arguments: `formatHelper<>` for the empty list,
`formatHelper<ArgT>` and `formatHelper<ArgT, RestT...>` (which have the same
body) for a first argument.  The result is the content of `Stream`
afterwards. -/
def formatHelper.format (Stream : Text) (LastPos : Nat) (Format : Text) :
    List LogArg → Option Text
  | [] =>
    match substr Format LastPos none with
    | none => none
    | some t => some (Stream ++ t)
  | Arg :: Rest =>
    let Pos := find Format placeholder LastPos
    match substr Format LastPos (Pos.map (fun p => p - LastPos)) with
    | none => none
    | some t =>
      let Stream1 := Stream ++ t ++ Arg.str
      match Pos with
      | none => some Stream1
      | some p => formatHelper.format Stream1 (p + 2) Format Rest

/-- The enumeration `XPTILogDomain`. -/
inductive XPTILogDomain where
  | Unknown
  | ProgramManager
  | Scheduler
  | Device
  deriving DecidableEq, Repr

/-- The function `XPTIRegistry::log`: the arguments of the call of `logImpl`
it makes, `some none` when it returns without calling it, `none` when
formatting throws. -/
def log (xptiTraceEnabled : Bool) (Domain : XPTILogDomain) (LogLevel : Nat)
    (Format : Text) (Args : List LogArg) : Option (Option (Text × Nat × XPTILogDomain)) :=
  if !xptiTraceEnabled then
    some none
  else
    match formatHelper.format [] 0 Format Args with
    | none => none
    | some Msg => some (some (Msg, LogLevel, Domain))

/-! ## Format strings taken apart -/

/-- The text `s0 a1 s1 a2 .. s(n-1) an tail` for the pieces `s0 .. s(n-1)`,
the fillers `a1 .. an` and the last piece `tail`. -/
def weave : List Text → List Text → Text → Text
  | s :: pieces, a :: fillers, tail => s ++ a ++ weave pieces fillers tail
  | _, _, tail => tail

/-- Whether a text holds no `{}`. -/
def plain (s : Text) : Prop := find s placeholder 0 = none

instance (s : Text) : Decidable (plain s) := by
  unfold plain; infer_instance

/-! ## Counting calls and entries -/

/-- The number of retain calls in a log whose backend and handle satisfy `p`. -/
def retainsOf (p : backend → pi_event → Bool) (cs : List Call) : Nat :=
  cs.countP (fun c => match c with
    | Call.retain b e => p b e
    | _ => false)

/-- The number of release calls in a log whose backend and handle satisfy `p`. -/
def releasesOf (p : backend → pi_event → Bool) (cs : List Call) : Nat :=
  cs.countP (fun c => match c with
    | Call.release b e => p b e
    | _ => false)

/-- The number of queue entries whose backend and handle satisfy `p`. -/
def heldOf (p : backend → pi_event → Bool) (q : List EventInfo) : Nat :=
  q.countP (fun i => p i.Backend i.Event)

/-- The number of retain calls made on the handle `h`. -/
def retainCount (h : pi_event) (cs : List Call) : Nat :=
  retainsOf (fun _ e => e == h) cs

/-- The number of release calls made on the handle `h`. -/
def releaseCount (h : pi_event) (cs : List Call) : Nat :=
  releasesOf (fun _ e => e == h) cs

/-- The number of queue entries that hold the handle `h`. -/
def queueCount (h : pi_event) (q : List EventInfo) : Nat :=
  heldOf (fun _ e => e == h) q

/-- Whether the worker finds the entry at position `k` complete under the
plugin answers `T`. -/
def isComplete (T : PiTable) (k : Nat) (Info : EventInfo) : Bool :=
  decide (T.piEventGetInfo k Info.Backend Info.Event = PI_EVENT_COMPLETE)

/-- Whether a call is a status query, the only call of the worker that
changes nothing outside. -/
def Call.isQuery : Call → Bool
  | Call.getStatus _ _ _ => true
  | _ => false

/-- Every release of a log stands right after the notification of a trace
event built for the same entry, which stands right after a status query on
the same entry that found `PI_EVENT_COMPLETE`. -/
def ReleasesGuarded (cs : List Call) : Prop :=
  ∀ (i : Nat) (b : backend) (h : pi_event), cs[i]? = some (Call.release b h) →
    2 ≤ i ∧ cs[i - 2]? = some (Call.getStatus b h PI_EVENT_COMPLETE) ∧
    ∃ (T : PiTable) (k : Nat) (kn : Option String),
      cs[i - 1]? = some (Call.notify (makeTraceEvent T k ⟨b, h, kn⟩))

/-! ## The wrapper `piQueueCreate<Backend>` -/

/-- A `pi_queue_properties` value: a 64-bit field of flags. -/
abbrev pi_queue_properties := Nat

/-- Modelled from the spec: the "profiling enabled" flag of the queue
properties, `PI_QUEUE_PROFILING_ENABLE` of `pi.h`, which is not among the
sources; it is the single bit `1 << 1`. -/
def PI_QUEUE_PROFILING_ENABLE : pi_queue_properties := 2

/-- The wrapper over the captured `piQueueCreate`.  `MQueueCreate` is the
captured original: given the backend and the four arguments it takes the
state of the plugin to the result and the state afterwards (the queue written
through `queue` is part of that state).  `context`, `device` and `queue` are
handles and a pointer the wrapper only passes on. -/
def piQueueCreate {σ : Type}
    (MQueueCreate : backend → Nat → Nat → pi_queue_properties → Nat → σ → pi_result × σ)
    (Backend : backend) (context device : Nat) (properties : pi_queue_properties)
    (queue : Nat) (s : σ) : pi_result × σ :=
  let properties1 := properties ||| PI_QUEUE_PROFILING_ENABLE
  MQueueCreate Backend context device properties1 queue s

/-- The arguments of one call of a plugin's `piQueueCreate`. -/
structure QueueCreateCall where
  Backend : backend
  context : Nat
  device : Nat
  properties : pi_queue_properties
  queue : Nat
  deriving DecidableEq, Repr

/-- A plugin `piQueueCreate` that does nothing but note each call it gets
and return `Res`: the state is the list of calls so far. -/
def recordingQueueCreate (Res : pi_result) (Backend : backend) (context device : Nat)
    (properties : pi_queue_properties) (queue : Nat) (calls : List QueueCreateCall) :
    pi_result × List QueueCreateCall :=
  (Res, calls ++ [⟨Backend, context, device, properties, queue⟩])

/-! ## `wrapAPIs` and `initPIOverrides` -/

/-- A function pointer as found in a slot of a plugin's `PiFunctionTable` or
in one of the notifier's maps: a function of the plugin itself, or one of the
two wrappers of this layer. -/
inductive FnPtr where
  /-- The plugin's own function at the given address. -/
  | plugin (addr : Nat)
  /-- The address `&XPTIEventNotifier::piQueueCreate<Backend>`. -/
  | wrappedQueueCreate (Backend : backend)
  /-- The address `&XPTIEventNotifier::piEnqueueKernelLaunch<Backend>`. -/
  | wrappedEnqueueKernelLaunch (Backend : backend)
  deriving DecidableEq, Repr

/-- The six slots of `PiFunctionTable` that `wrapAPIs` reads. -/
structure PiFunctionTable where
  piEventRelease : FnPtr
  piEventRetain : FnPtr
  piEventGetInfo : FnPtr
  piEventGetProfilingInfo : FnPtr
  piQueueCreate : FnPtr
  piEnqueueKernelLaunch : FnPtr
  deriving DecidableEq, Repr

/-- The six maps `std::unordered_map<backend, ..>` of the notifier; `none`
for a backend that has no element. -/
structure Originals where
  MEnqueueKernel : backend → Option FnPtr
  MQueueCreate : backend → Option FnPtr
  MEventRetain : backend → Option FnPtr
  MEventRelease : backend → Option FnPtr
  MEventGetInfo : backend → Option FnPtr
  MEventGetProfilingInfo : backend → Option FnPtr

/-- The maps of a notifier just constructed. -/
def Originals.empty : Originals :=
  ⟨fun _ => none, fun _ => none, fun _ => none, fun _ => none, fun _ => none, fun _ => none⟩

/-- The assignment `M[Backend] = f` on an `unordered_map`. -/
def assign (M : backend → Option FnPtr) (Backend : backend) (f : FnPtr) :
    backend → Option FnPtr :=
  fun b => if b = Backend then some f else M b

/-- The function `wrapAPIs<Backend>(Plugin)`: the table of the plugin and the
maps of the notifier afterwards. -/
def wrapAPIs (Backend : backend) (Table : PiFunctionTable) (O : Originals) :
    PiFunctionTable × Originals :=
  let O1 := { O with MEventRelease := assign O.MEventRelease Backend Table.piEventRelease }
  let O2 := { O1 with MEventRetain := assign O1.MEventRetain Backend Table.piEventRetain }
  let O3 := { O2 with MEventGetInfo := assign O2.MEventGetInfo Backend Table.piEventGetInfo }
  let O4 := { O3 with
    MEventGetProfilingInfo :=
      (assign O3.MEventGetProfilingInfo Backend Table.piEventGetProfilingInfo) }
  let O5 := { O4 with MQueueCreate := assign O4.MQueueCreate Backend Table.piQueueCreate }
  let Table1 := { Table with piQueueCreate := FnPtr.wrappedQueueCreate Backend }
  let O6 := { O5 with
    MEnqueueKernel := (assign O5.MEnqueueKernel Backend Table1.piEnqueueKernelLaunch) }
  let Table2 := { Table1 with
    piEnqueueKernelLaunch := FnPtr.wrappedEnqueueKernelLaunch Backend }
  (Table2, O6)

/-- A plugin as `initPIOverrides` sees it: its backend and its function
table. -/
structure plugin where
  Backend : backend
  PiFunctionTable : PiFunctionTable
  deriving DecidableEq, Repr

/-- The loop of `initPIOverrides` over the plugins of the global handler,
entered when `SYCL_XPTI_ENABLE_EXTRA_INSTRUMENTATION` is set: each plugin is
handed to the instance of `wrapAPIs` for its backend. -/
def initPIOverrides (extraInstrumentation : Bool) :
    List plugin → Originals → List plugin × Originals
  | [], O => ([], O)
  | P :: Plugins, O =>
    if !extraInstrumentation then
      (P :: Plugins, O)
    else
      let r :=
        match P.Backend with
        | backend.opencl => wrapAPIs backend.opencl P.PiFunctionTable O
        | backend.ext_oneapi_level_zero =>
          wrapAPIs backend.ext_oneapi_level_zero P.PiFunctionTable O
        | backend.ext_oneapi_cuda => wrapAPIs backend.ext_oneapi_cuda P.PiFunctionTable O
        | backend.ext_oneapi_hip => wrapAPIs backend.ext_oneapi_hip P.PiFunctionTable O
        | backend.ext_intel_esimd_emulator =>
          wrapAPIs backend.ext_intel_esimd_emulator P.PiFunctionTable O
      let rest := initPIOverrides extraInstrumentation Plugins r.2
      ({ P with PiFunctionTable := r.1 } :: rest.1, rest.2)

/-- The table and the maps after `n` calls of `wrapAPIs<Backend>` on the same
table. -/
def installTimes (Backend : backend) : Nat → PiFunctionTable → Originals →
    PiFunctionTable × Originals
  | 0, Table, O => (Table, O)
  | n + 1, Table, O =>
    wrapAPIs Backend (installTimes Backend n Table O).1 (installTimes Backend n Table O).2

/-! ## `XPTIRegistry`: the active streams -/

/-- A call of `XPTIRegistry` into the XPTI framework. -/
inductive XptiCall where
  /-- The call `xptiInitialize(StreamName, MajVer, MinVer, VerStr)`. -/
  | xptiInitialize (StreamName : String) (MajVer MinVer : Nat) (VerStr : String)
  /-- The call `xptiFinalize(StreamName)`. -/
  | xptiFinalize (StreamName : String)
  /-- The call `xptiFrameworkFinalize()`. -/
  | xptiFrameworkFinalize
  deriving DecidableEq, Repr

/-- The set `MActiveStreams` of `XPTIRegistry`, a `std::unordered_set`, as the
list of its elements in the order a `for` loop visits them (here the order of
insertion; the standard leaves the order open), without repetition. -/
abbrev StreamSet := List String

/-- The call `S.insert(StreamName)` on a `std::unordered_set`. -/
def StreamSet.insert (S : StreamSet) (StreamName : String) : StreamSet :=
  if StreamName ∈ S then S else S ++ [StreamName]

/-- The arguments of one call of `initializeStream`. -/
structure StreamInit where
  StreamName : String
  MajVer : Nat
  MinVer : Nat
  VerStr : String
  deriving DecidableEq, Repr

/-- The function `XPTIRegistry::initializeStream`, built with
`XPTI_ENABLE_INSTRUMENTATION`: the set afterwards and the call it makes. -/
def initializeStream (c : StreamInit) (MActiveStreams : StreamSet) :
    StreamSet × List XptiCall :=
  (MActiveStreams.insert c.StreamName,
   [XptiCall.xptiInitialize c.StreamName c.MajVer c.MinVer c.VerStr])

/-- The set `MActiveStreams` after a sequence of calls of `initializeStream`
on a registry that held `S`. -/
def activeStreamsAfter (calls : List StreamInit) (S : StreamSet) : StreamSet :=
  calls.foldl (fun S c => (initializeStream c S).1) S

/-- The destructor `~XPTIRegistry`, built with `XPTI_ENABLE_INSTRUMENTATION`:
the calls it makes, in order. -/
def destroyRegistry (MActiveStreams : StreamSet) : List XptiCall :=
  MActiveStreams.map XptiCall.xptiFinalize ++ [XptiCall.xptiFrameworkFinalize]

/-! ## Handles and emissions of a run -/

/-- The handles found in `*event` by the calls of the wrapper made with
tracing enabled, in call order. -/
def tracedHandles (steps : List Step) : List pi_event :=
  steps.filterMap (fun s => match s with
    | Step.enqueue true _ _ e => some e
    | _ => none)

/-- The two calls by which the worker emits the entry `x.2.2`, met at
position `x.2.1` of the queue during the pass with the plugin answers `x.1`:
the notification of its trace event, then the release of its handle. -/
def emit (x : PiTable × Nat × EventInfo) : List Call :=
  [Call.notify (makeTraceEvent x.1 x.2.1 x.2.2), Call.release x.2.2.Backend x.2.2.Event]

/-! ## The launcher `sycl-trace` (`main.cpp`) -/

/-- The enumeration `ModeKind` of `main.cpp`. -/
inductive ModeKind where
  | PI
  | ZE
  | CU
  deriving DecidableEq, Repr

/-- The enumeration `PrintFormatKind` of `main.cpp`. -/
inductive PrintFormatKind where
  | PRETTY_COMPACT
  | PRETTY_VERBOSE
  | CLASSIC
  deriving DecidableEq, Repr

/-- The enumeration `LogDomainKinds` of `main.cpp` and `collector.cpp`. -/
inductive LogDomainKinds where
  | LOG_UNKNOWN
  | LOG_PROGRAM_MANAGER
  | LOG_SCHEDULER
  | LOG_DEVICE
  deriving DecidableEq, Repr

/-- The value of an enumerator of `LogDomainKinds`. -/
def LogDomainKinds.val : LogDomainKinds → Nat
  | LogDomainKinds.LOG_UNKNOWN => 0
  | LogDomainKinds.LOG_PROGRAM_MANAGER => 1
  | LogDomainKinds.LOG_SCHEDULER => 2
  | LogDomainKinds.LOG_DEVICE => 3

/-- The enumeration `LogLevelKinds` of `main.cpp`. -/
inductive LogLevelKinds where
  | LOG_ERR
  | LOG_WARN
  | LOG_INFO
  | LOG_NONE
  deriving DecidableEq, Repr

/-- The names under which the option `Modes` of `main.cpp` can be selected
on the command line. -/
inductive ModeName where
  | plugin
  | level_zero
  | cuda
  deriving DecidableEq, Repr

/-- The value that the `cl::values` table of `Modes` gives to each name:
`clEnumValN(PI, "plugin", ..)`, `clEnumValN(ZE, "level_zero", ..)`,
`clEnumValN(ZE, "cuda", "Trace CUDA Driver API calls")`. -/
def ModeName.value : ModeName → ModeKind
  | ModeName.plugin => ModeKind.PI
  | ModeName.level_zero => ModeKind.ZE
  | ModeName.cuda => ModeKind.ZE

/-- The lambda `EnablePITrace`. -/
def EnablePITrace (NewEnv : List String) : List String :=
  NewEnv ++ ["SYCL_TRACE_PI_ENABLE=1"]

/-- The lambda `EnableZETrace`. -/
def EnableZETrace (NewEnv : List String) : List String :=
  NewEnv ++ ["SYCL_TRACE_ZE_ENABLE=1", "SYCL_PI_LEVEL_ZERO_ENABLE_TRACING=1",
    "ZE_ENABLE_TRACING_LAYER=1"]

/-- The lambda `EnableCUTrace`. -/
def EnableCUTrace (NewEnv : List String) : List String :=
  NewEnv ++ ["SYCL_TRACE_CU_ENABLE=1", "SYCL_PI_CUDA_ENABLE_TRACING=1"]

/-- The loop `for (auto Mode : Modes)` with its `switch`. -/
def enableModes : List ModeKind → List String → List String
  | [], NewEnv => NewEnv
  | Mode :: rest, NewEnv =>
    match Mode with
    | ModeKind.PI => enableModes rest (EnablePITrace NewEnv)
    | ModeKind.ZE => enableModes rest (EnableZETrace NewEnv)
    | ModeKind.CU => enableModes rest (EnableZETrace NewEnv)

/-- A `std::bitset<4>`, as the number whose binary digits are its bits. -/
abbrev bitset4 := Nat

/-- The constructor `std::bitset<4>(unsigned long long)`: the four low bits
of the value. -/
def bitset4.ofValue (v : Nat) : bitset4 := v % 16

/-- The member `to_string()` of `std::bitset<4>`: four characters, the one
for bit 3 first. -/
def bitset4.to_string (B : bitset4) : List Char :=
  [3, 2, 1, 0].map (fun i => if B.testBit i then '1' else '0')

/-- The bits that the characters `cs`, the last of which stands for bit 0,
stand for. -/
def bitsOfChars (cs : List Char) : Nat :=
  cs.foldl (fun acc ch => 2 * acc + (if ch = '1' then 1 else 0)) 0

/-- The constructor `std::bitset<4>(const char *)`: `none` for the exception
`std::invalid_argument`, thrown when a character is neither `0` nor `1`;
otherwise the first four characters (or all, if fewer) give the bits, the
last of them bit 0. -/
def bitset4.ofString (str : List Char) : Option bitset4 :=
  if str.all (fun ch => ch = '0' || ch = '1') then some (bitsOfChars (str.take 4)) else none

/-- The member `operator[]` of `std::bitset<4>` (positions 0 to 3). -/
def bitset4.get (B : bitset4) (pos : Nat) : Bool := B.testBit pos

/-- Modelled from the spec: the "log domain bitmask" that `getBits()` of the
option `LogDomains` returns; `cl::bits` of `llvm/Support/CommandLine.h` is not
among the sources.  The bit at position `d` is set when the domain with value
`d` was selected. -/
def getBits (LogDomains : List LogDomainKinds) : Nat :=
  LogDomains.foldl (fun bits d => bits ||| (1 <<< d.val)) 0

/-- The text after `SYCL_TRACE_LOG_MASK=` that `main` writes. -/
def logMask (LogDomains : List LogDomainKinds) : List Char :=
  (bitset4.ofValue (if getBits LogDomains = 0 then 15 else getBits LogDomains)).to_string

/-- The vector `NewEnv` that `main` hands to `launch`: `env` is the
environment of the launcher, the other arguments are the values of the
options after `cl::ParseCommandLineOptions`. -/
def newEnv (env : List String) (Modes : List ModeKind) (PrintFormat : PrintFormatKind)
    (LogLevel : LogLevelKinds) (LogDomains : List LogDomainKinds) : List String :=
  let NewEnv := env ++ ["XPTI_FRAMEWORK_DISPATCHER=libxptifw.so",
    "XPTI_SUBSCRIBERS=libsycl_pi_trace_collector.so", "XPTI_TRACE_ENABLE=1"]
  let NewEnv := enableModes Modes NewEnv
  let NewEnv :=
    match PrintFormat with
    | PrintFormatKind.CLASSIC => NewEnv ++ ["SYCL_TRACE_PRINT_FORMAT=classic"]
    | PrintFormatKind.PRETTY_VERBOSE => NewEnv ++ ["SYCL_TRACE_PRINT_FORMAT=verbose"]
    | PrintFormatKind.PRETTY_COMPACT => NewEnv ++ ["SYCL_TRACE_PRINT_FORMAT=compact"]
  let NewEnv :=
    match LogLevel with
    | LogLevelKinds.LOG_ERR => NewEnv ++ ["SYCL_TRACE_LOG_LEVEL=err"]
    | LogLevelKinds.LOG_WARN => NewEnv ++ ["SYCL_TRACE_LOG_LEVEL=warn"]
    | LogLevelKinds.LOG_INFO => NewEnv ++ ["SYCL_TRACE_LOG_LEVEL=info"]
    | LogLevelKinds.LOG_NONE => NewEnv ++ ["SYCL_TRACE_LOG_LEVEL=none"]
  let NewEnv := NewEnv ++ ["SYCL_TRACE_LOG_MASK=" ++ String.mk (logMask LogDomains)]
  if Modes.length = 0 then
    EnableCUTrace (EnableZETrace (EnablePITrace NewEnv))
  else
    NewEnv

/-! ## The collector (`collector.cpp`) -/

/-- The enumeration `LogLevelKinds` of `collector.cpp`, by its values
`Error = 0`, `Warning = 1`, `Info = 2`. -/
inductive CollectorLogLevel where
  | Error
  | Warning
  | Info
  deriving DecidableEq, Repr

/-- The value of an enumerator of the collector's `LogLevelKinds`. -/
def CollectorLogLevel.val : CollectorLogLevel → Nat
  | CollectorLogLevel.Error => 0
  | CollectorLogLevel.Warning => 1
  | CollectorLogLevel.Info => 2

/-- The `event_type` of a log event, as `logCallback` tells them apart. -/
inductive LogEventType where
  | LogInfoT
  | LogWarnT
  | LogErrorT
  | other
  deriving DecidableEq, Repr

/-- An item of the metadata of an event: its name, and its value read as
the `uint32_t` that `logCallback` takes for `DomainID` and as the text it
takes for `DomainName`. -/
structure MetadataItem where
  Name : String
  DomainID : Nat
  Text : String
  deriving DecidableEq, Repr

/-- The statement `if (MaskPtr) LogDomains = std::bitset<4>(MaskPtr)` of
`xptiTraceInit`: `MaskPtr` is the value of `SYCL_TRACE_LOG_MASK`, `none` when
it is not set; the result is `none` when the constructor throws. -/
def readLogMask (MaskPtr : Option (List Char)) (LogDomains : bitset4) : Option bitset4 :=
  match MaskPtr with
  | none => some LogDomains
  | some str => bitset4.ofString str

/-- The loop of `logCallback` over the metadata: `none` when it returns from
the callback (the event is dropped), otherwise the domain name to print. -/
def scanMetadata (LogDomains : bitset4) :
    List MetadataItem → String → Bool → Bool → Option String
  | [], DomainName, _, _ => some DomainName
  | Item :: rest, DomainName, HasDomain, HasDomainName =>
    if Item.Name = "domain" then
      if !LogDomains.get Item.DomainID then none
      else if true && HasDomainName then some DomainName
      else scanMetadata LogDomains rest DomainName true HasDomainName
    else if Item.Name = "domain_name" then
      if HasDomain && true then some Item.Text
      else scanMetadata LogDomains rest Item.Text HasDomain true
    else if HasDomain && HasDomainName then some DomainName
    else scanMetadata LogDomains rest DomainName HasDomain HasDomainName

/-- The function `logCallback` up to its output: `none` when the event is
dropped, otherwise the domain name it prints in the header of the line. -/
def logCallback (LogDomains : bitset4) (LogLevel : CollectorLogLevel)
    (event_type : LogEventType) (Metadata : List MetadataItem) : Option String :=
  if event_type = LogEventType.LogInfoT ∧ LogLevel.val < CollectorLogLevel.Info.val then none
  else if event_type = LogEventType.LogWarnT ∧ LogLevel.val < CollectorLogLevel.Warning.val
  then none
  else scanMetadata LogDomains Metadata "unknown" false false

/-- The handle a step appends to the queue: the one found in `*event` by a
call of the wrapper made with tracing enabled; `none` for any other step. -/
def Step.traced : Step → Option pi_event
  | Step.enqueue true _ _ e => some e
  | _ => none

/-- Whether every call of the wrapper made with tracing enabled, in a run
from the notifier `N`, finds in `*event` a handle that no entry of the queue
holds at that moment. -/
def freshCalls : List Step → Notifier → Bool
  | [], _ => true
  | s :: rest, N =>
    (match s.traced with
      | some e => decide (e ∉ N.MQueue.map (fun i => i.Event))
      | none => true) && freshCalls rest (s.apply N)

/-! # Theorems -/

/-! ## The worker's pass over the queue -/

theorem removeIfErase_step (T : PiTable) (k : Nat) (Info : EventInfo)
    (rest : List EventInfo) (C : List Call) :
    removeIfErase T k (Info :: rest) C
      = if isComplete T k Info then removeIfErase T (k + 1) rest (C ++ (removePred T k Info).1)
        else (Info :: (removeIfErase T (k + 1) rest (C ++ (removePred T k Info).1)).1,
              (removeIfErase T (k + 1) rest (C ++ (removePred T k Info).1)).2) := by
  by_cases hc : T.piEventGetInfo k Info.Backend Info.Event = PI_EVENT_COMPLETE
  · simp [removeIfErase, removePred, isComplete, hc]
  · simp [removeIfErase, removePred, isComplete, hc]

theorem removeIfErase_queue (T : PiTable) (k : Nat) (q : List EventInfo) (C : List Call) :
    (removeIfErase T k q C).1
      = ((q.enumFrom k).filter (fun p => !isComplete T p.1 p.2)).map Prod.snd := by
  induction q generalizing k C with
  | nil => rfl
  | cons Info rest ih =>
    rw [removeIfErase_step, List.enumFrom_cons]
    by_cases hc : isComplete T k Info = true
    · rw [if_pos hc, ih, List.filter_cons_of_neg (by simp [hc])]
    · rw [if_neg hc, ih, List.filter_cons_of_pos (by simpa using hc), List.map_cons]

theorem removeIfErase_calls (T : PiTable) (k : Nat) (q : List EventInfo) (C : List Call) :
    (removeIfErase T k q C).2
      = C ++ (q.enumFrom k).flatMap (fun p => (removePred T p.1 p.2).1) := by
  induction q generalizing k C with
  | nil => simp [removeIfErase]
  | cons Info rest ih =>
    rw [removeIfErase_step, List.enumFrom_cons, List.flatMap_cons]
    by_cases hc : isComplete T k Info = true
    · rw [if_pos hc, ih, List.append_assoc]
    · rw [if_neg hc, ih, List.append_assoc]

/-! ## The wrapper -/

/-- C1, as stated, fails: with tracing enabled and the original returning the
failure `-5`, the wrapper still retains the handle found in `*event` and
appends an entry for it. -/
theorem piEnqueueKernelLaunch_failure_instrumented :
    (-5 : pi_result) ≠ PI_SUCCESS ∧
    piEnqueueKernelLaunch (fun _ (_ : Unit) => ((-5 : pi_result), (7 : pi_event))) true
        backend.opencl () Notifier.init
      = (-5, { MQueue := [⟨backend.opencl, 7, none⟩],
               Calls := [Call.retain backend.opencl 7] }) ∧
    (piEnqueueKernelLaunch (fun _ (_ : Unit) => ((-5 : pi_result), (7 : pi_event))) true
        backend.opencl () Notifier.init).2 ≠ Notifier.init := by
  decide

/-- C1 (amended): when the original enqueue returns a failure, the wrapper
returns that same result; with tracing disabled it makes no call and leaves
the queue as it was; with tracing enabled it does not look at the result and
makes exactly the one retain and the one append it makes after a success. -/
theorem piEnqueueKernelLaunch_failure {α : Type}
    (MEnqueueKernel : backend → α → pi_result × pi_event) (xptiTraceEnabled : Bool)
    (Backend : backend) (args : α) (N : Notifier)
    (_hfail : (MEnqueueKernel Backend args).1 ≠ PI_SUCCESS) :
    (piEnqueueKernelLaunch MEnqueueKernel xptiTraceEnabled Backend args N).1
        = (MEnqueueKernel Backend args).1 ∧
    (xptiTraceEnabled = false →
      (piEnqueueKernelLaunch MEnqueueKernel xptiTraceEnabled Backend args N).2 = N) ∧
    (xptiTraceEnabled = true →
      (piEnqueueKernelLaunch MEnqueueKernel xptiTraceEnabled Backend args N).2
        = { MQueue := N.MQueue ++ [⟨Backend, (MEnqueueKernel Backend args).2, none⟩],
            Calls := N.Calls ++ [Call.retain Backend (MEnqueueKernel Backend args).2] }) := by
  cases xptiTraceEnabled <;> simp [piEnqueueKernelLaunch]

theorem piEnqueueKernelLaunch_failure_witness :
    ((-5 : pi_result) ≠ PI_SUCCESS) ∧
    (piEnqueueKernelLaunch (fun _ (_ : Unit) => ((-5 : pi_result), (7 : pi_event))) false
        backend.ext_oneapi_cuda () ⟨[⟨backend.opencl, 3, none⟩], [Call.retain backend.opencl 3]⟩).1
      = -5 ∧
    (piEnqueueKernelLaunch (fun _ (_ : Unit) => ((-5 : pi_result), (7 : pi_event))) false
        backend.ext_oneapi_cuda () ⟨[⟨backend.opencl, 3, none⟩], [Call.retain backend.opencl 3]⟩).2
      = ⟨[⟨backend.opencl, 3, none⟩], [Call.retain backend.opencl 3]⟩ :=
  have h := piEnqueueKernelLaunch_failure (fun _ (_ : Unit) => ((-5 : pi_result), (7 : pi_event)))
    false backend.ext_oneapi_cuda () ⟨[⟨backend.opencl, 3, none⟩], [Call.retain backend.opencl 3]⟩
    (by decide)
  ⟨by decide, h.1, h.2.1 rfl⟩

theorem run_nil (N : Notifier) : run [] N = N := rfl

theorem run_cons (s : Step) (steps : List Step) (N : Notifier) :
    run (s :: steps) N = run steps (s.apply N) := rfl

theorem run_append (xs ys : List Step) (N : Notifier) :
    run (xs ++ ys) N = run ys (run xs N) := by
  simp [run, List.foldl_append]

theorem apply_disabled (s : Step) (N : Notifier) (h : s.traceEnabled = false) :
    s.apply N = N := by
  cases s with
  | enqueue t b Res event =>
    simp only [Step.traceEnabled] at h
    subst h
    rfl
  | poll t T =>
    simp only [Step.traceEnabled] at h
    subst h
    rfl

theorem run_disabled (steps : List Step) (N : Notifier)
    (h : ∀ s ∈ steps, s.traceEnabled = false) : run steps N = N := by
  induction steps generalizing N with
  | nil => rfl
  | cons s rest ih =>
    rw [run_cons, apply_disabled s N (h s (List.mem_cons_self _ _))]
    exact ih N (fun x hx => h x (List.mem_cons_of_mem _ hx))

/-- C5: with tracing disabled the wrapper returns the original's result,
makes no call and leaves the queue as it was; an iteration of the worker loop
changes nothing; so a run made of such steps only, started from the empty
notifier, ends with an empty queue and an empty log (no retain, no
notification, no release). -/
theorem tracing_disabled_no_effect :
    (∀ (α : Type) (MEnqueueKernel : backend → α → pi_result × pi_event) (Backend : backend)
        (args : α) (N : Notifier),
      piEnqueueKernelLaunch MEnqueueKernel false Backend args N
        = ((MEnqueueKernel Backend args).1, N)) ∧
    (∀ (T : PiTable) (N : Notifier), workerIteration false T N = N) ∧
    (∀ (steps : List Step) (N : Notifier),
      (∀ s ∈ steps, s.traceEnabled = false) → run steps N = N) ∧
    (∀ (steps : List Step), (∀ s ∈ steps, s.traceEnabled = false) →
      (run steps Notifier.init).MQueue = [] ∧ (run steps Notifier.init).Calls = []) := by
  refine ⟨fun _ _ _ _ _ => rfl, fun _ _ => rfl, run_disabled, fun steps h => ?_⟩
  rw [run_disabled steps _ h]
  exact ⟨rfl, rfl⟩

theorem tracing_disabled_no_effect_witness :
    (run [Step.enqueue false backend.opencl 0 7,
          Step.poll false ⟨fun _ _ _ => PI_EVENT_COMPLETE, fun _ _ _ _ t => t⟩,
          Step.enqueue false backend.ext_oneapi_hip (-5) 8] Notifier.init).MQueue = [] ∧
    (run [Step.enqueue false backend.opencl 0 7,
          Step.poll false ⟨fun _ _ _ => PI_EVENT_COMPLETE, fun _ _ _ _ t => t⟩,
          Step.enqueue false backend.ext_oneapi_hip (-5) 8] Notifier.init).Calls = [] :=
  tracing_disabled_no_effect.2.2.2 _ (by simp [Step.traceEnabled])

theorem run_enqueues (calls : List (backend × pi_result × pi_event)) (N : Notifier) :
    run (calls.map (fun c => Step.enqueue true c.1 c.2.1 c.2.2)) N
      = { MQueue := N.MQueue ++ calls.map (fun c => (⟨c.1, c.2.2, none⟩ : EventInfo)),
          Calls := N.Calls ++ calls.map (fun c => Call.retain c.1 c.2.2) } := by
  induction calls generalizing N with
  | nil => simp [run]
  | cons c rest ih =>
    rw [List.map_cons, run_cons, ih]
    simp [Step.apply, piEnqueueKernelLaunch]

/-- C6: after `n` calls of the wrapper with tracing enabled, none of which
failed in the original, and no worker iteration in between, the queue is the
queue before followed by one entry `{Backend, *event, no kernel name}` per
call, in call order, and the wrapper made exactly one retain per call, on
that call's handle. -/
theorem enqueue_sequence_appends (calls : List (backend × pi_result × pi_event))
    (N : Notifier) (_hok : ∀ c ∈ calls, c.2.1 = PI_SUCCESS) :
    (run (calls.map (fun c => Step.enqueue true c.1 c.2.1 c.2.2)) N).MQueue
      = N.MQueue ++ calls.map (fun c => (⟨c.1, c.2.2, none⟩ : EventInfo)) ∧
    (run (calls.map (fun c => Step.enqueue true c.1 c.2.1 c.2.2)) N).MQueue.length
      = N.MQueue.length + calls.length ∧
    (run (calls.map (fun c => Step.enqueue true c.1 c.2.1 c.2.2)) N).Calls
      = N.Calls ++ calls.map (fun c => Call.retain c.1 c.2.2) ∧
    (∀ h : pi_event,
      retainCount h (run (calls.map (fun c => Step.enqueue true c.1 c.2.1 c.2.2)) N).Calls
        = retainCount h N.Calls + calls.countP (fun c => c.2.2 == h)) := by
  rw [run_enqueues]
  refine ⟨rfl, by simp, rfl, fun h => ?_⟩
  simp only [retainCount, retainsOf, List.countP_append, List.countP_map]
  congr 1

theorem enqueue_sequence_appends_witness :
    (run ([(backend.opencl, PI_SUCCESS, 7), (backend.ext_oneapi_cuda, PI_SUCCESS, 9)].map
        (fun c => Step.enqueue true c.1 c.2.1 c.2.2)) Notifier.init).MQueue
      = [⟨backend.opencl, 7, none⟩, ⟨backend.ext_oneapi_cuda, 9, none⟩] ∧
    (run ([(backend.opencl, PI_SUCCESS, 7), (backend.ext_oneapi_cuda, PI_SUCCESS, 9)].map
        (fun c => Step.enqueue true c.1 c.2.1 c.2.2)) Notifier.init).Calls
      = [Call.retain backend.opencl 7, Call.retain backend.ext_oneapi_cuda 9] :=
  have h := enqueue_sequence_appends
    [(backend.opencl, PI_SUCCESS, 7), (backend.ext_oneapi_cuda, PI_SUCCESS, 9)] Notifier.init
    (by decide)
  ⟨h.1, h.2.2.1⟩

/-! ## Retains, releases and the queue along a run -/

theorem removeIfErase_balance (p : backend → pi_event → Bool) (T : PiTable) (k : Nat)
    (q : List EventInfo) (C : List Call) :
    retainsOf p (removeIfErase T k q C).2 = retainsOf p C ∧
    releasesOf p (removeIfErase T k q C).2 + heldOf p (removeIfErase T k q C).1
      = releasesOf p C + heldOf p q := by
  induction q generalizing k C with
  | nil => simp [removeIfErase]
  | cons Info rest ih =>
    obtain ⟨h1, h2⟩ := ih (k + 1) (C ++ (removePred T k Info).1)
    rw [removeIfErase_step]
    by_cases hc : T.piEventGetInfo k Info.Backend Info.Event = PI_EVENT_COMPLETE
    · have hc' : isComplete T k Info = true := by simp [isComplete, hc]
      rw [if_pos hc', h1, h2]
      simp only [removePred, hc, if_true, retainsOf, releasesOf, heldOf, List.countP_append,
        List.countP_cons, List.countP_nil]
      constructor
      · simp
      · by_cases hp : p Info.Backend Info.Event = true <;> simp [hp]
        omega
    · have hc' : ¬ (isComplete T k Info = true) := by simp [isComplete, hc]
      rw [if_neg hc']
      simp only [h1]
      constructor
      · simp [removePred, hc, retainsOf, List.countP_append, List.countP_cons]
      · have h3 : heldOf p (Info :: (removeIfErase T (k + 1) rest (C ++ (removePred T k Info).1)).1)
            = heldOf p (removeIfErase T (k + 1) rest (C ++ (removePred T k Info).1)).1
              + (if p Info.Backend Info.Event = true then 1 else 0) := by
          simp [heldOf, List.countP_cons]
        have h4 : heldOf p (Info :: rest)
            = heldOf p rest + (if p Info.Backend Info.Event = true then 1 else 0) := by
          simp [heldOf, List.countP_cons]
        have h5 : releasesOf p (C ++ (removePred T k Info).1) = releasesOf p C := by
          simp [removePred, hc, releasesOf, List.countP_append, List.countP_cons]
        rw [h3, h4]
        rw [h5] at h2
        omega

theorem apply_balance (p : backend → pi_event → Bool) (s : Step) (N : Notifier)
    (h : retainsOf p N.Calls = releasesOf p N.Calls + heldOf p N.MQueue) :
    retainsOf p (s.apply N).Calls
      = releasesOf p (s.apply N).Calls + heldOf p (s.apply N).MQueue := by
  cases s with
  | enqueue t b Res event =>
    cases t
    · exact h
    · simp only [Step.apply, piEnqueueKernelLaunch, retainsOf, releasesOf, heldOf,
        List.countP_append, List.countP_cons, List.countP_nil] at h ⊢
      simp only [Bool.not_true, Bool.false_eq_true, if_false, List.countP_append,
        List.countP_cons, List.countP_nil]
      by_cases hp : p b event = true <;> simp [hp] <;> omega
  | poll t T =>
    cases t
    · exact h
    · obtain ⟨h1, h2⟩ := removeIfErase_balance p T 0 N.MQueue N.Calls
      simp only [Step.apply, workerIteration, Bool.not_true, Bool.false_eq_true, if_false]
      omega

theorem run_balance (p : backend → pi_event → Bool) (steps : List Step) (N : Notifier)
    (h : retainsOf p N.Calls = releasesOf p N.Calls + heldOf p N.MQueue) :
    retainsOf p (run steps N).Calls
      = releasesOf p (run steps N).Calls + heldOf p (run steps N).MQueue := by
  induction steps generalizing N with
  | nil => exact h
  | cons s rest ih =>
    rw [run_cons]
    exact ih (s.apply N) (apply_balance p s N h)

theorem guarded_nil : ReleasesGuarded [] := by
  intro i b h hi
  simp at hi

theorem guarded_append_other (cs : List Call) (c : Call)
    (hc : ∀ (b : backend) (h : pi_event), c ≠ Call.release b h)
    (hcs : ReleasesGuarded cs) : ReleasesGuarded (cs ++ [c]) := by
  intro i b h hi
  by_cases hlt : i < cs.length
  · rw [List.getElem?_append_left hlt] at hi
    obtain ⟨h2, hq, T, k, kn, hn⟩ := hcs i b h hi
    refine ⟨h2, ?_, T, k, kn, ?_⟩
    · rw [List.getElem?_append_left (by omega)]
      exact hq
    · rw [List.getElem?_append_left (by omega)]
      exact hn
  · rw [List.getElem?_append_right (by omega)] at hi
    cases hj : i - cs.length with
    | zero =>
      rw [hj] at hi
      simp at hi
      exact absurd hi (hc b h)
    | succ j =>
      rw [hj] at hi
      simp at hi

theorem guarded_append_done (cs : List Call) (T : PiTable) (k : Nat) (Info : EventInfo)
    (hcs : ReleasesGuarded cs) :
    ReleasesGuarded (cs ++ [Call.getStatus Info.Backend Info.Event PI_EVENT_COMPLETE,
      Call.notify (makeTraceEvent T k Info), Call.release Info.Backend Info.Event]) := by
  intro i b h hi
  by_cases hlt : i < cs.length
  · rw [List.getElem?_append_left hlt] at hi
    obtain ⟨h2, hq, T', k', kn, hn⟩ := hcs i b h hi
    refine ⟨h2, ?_, T', k', kn, ?_⟩
    · rw [List.getElem?_append_left (by omega)]
      exact hq
    · rw [List.getElem?_append_left (by omega)]
      exact hn
  · rw [List.getElem?_append_right (by omega)] at hi
    have hj : i - cs.length = 2 := by
      rcases hk : i - cs.length with _ | _ | _ | k
      · rw [hk] at hi; simp at hi
      · rw [hk] at hi; simp at hi
      · rfl
      · rw [hk] at hi; simp at hi
    rw [hj] at hi
    simp at hi
    obtain ⟨hb, hh⟩ := hi
    subst hb
    subst hh
    refine ⟨by omega, ?_, T, k, Info.KernelName, ?_⟩
    · rw [List.getElem?_append_right (by omega)]
      have : i - 2 - cs.length = 0 := by omega
      rw [this]
      rfl
    · rw [List.getElem?_append_right (by omega)]
      have : i - 1 - cs.length = 1 := by omega
      rw [this]
      rfl

theorem removeIfErase_guarded (T : PiTable) (k : Nat) (q : List EventInfo) (C : List Call)
    (hC : ReleasesGuarded C) : ReleasesGuarded (removeIfErase T k q C).2 := by
  induction q generalizing k C with
  | nil => exact hC
  | cons Info rest ih =>
    have hnext : ReleasesGuarded (C ++ (removePred T k Info).1) := by
      by_cases hc : T.piEventGetInfo k Info.Backend Info.Event = PI_EVENT_COMPLETE
      · have := guarded_append_done C T k Info hC
        simpa [removePred, hc] using this
      · have := guarded_append_other C
          (Call.getStatus Info.Backend Info.Event (T.piEventGetInfo k Info.Backend Info.Event))
          (by intro b h; simp) hC
        simpa [removePred, hc] using this
    rw [removeIfErase_step]
    by_cases hc' : isComplete T k Info = true
    · rw [if_pos hc']
      exact ih _ _ hnext
    · rw [if_neg hc']
      exact ih _ _ hnext

theorem apply_guarded (s : Step) (N : Notifier) (h : ReleasesGuarded N.Calls) :
    ReleasesGuarded (s.apply N).Calls := by
  cases s with
  | enqueue t b Res event =>
    cases t
    · exact h
    · exact guarded_append_other N.Calls (Call.retain b event) (by intro b h; simp) h
  | poll t T =>
    cases t
    · exact h
    · exact removeIfErase_guarded T 0 N.MQueue N.Calls h

theorem run_guarded (steps : List Step) (N : Notifier) (h : ReleasesGuarded N.Calls) :
    ReleasesGuarded (run steps N).Calls := by
  induction steps generalizing N with
  | nil => exact h
  | cons s rest ih =>
    rw [run_cons]
    exact ih (s.apply N) (apply_guarded s N h)

theorem effects_of_scan (T : PiTable) (k : Nat) (q : List EventInfo) :
    ((q.enumFrom k).flatMap (fun p => (removePred T p.1 p.2).1)).filter (fun c => !c.isQuery)
      = ((q.enumFrom k).filter (fun p =>
            decide (T.piEventGetInfo p.1 p.2.Backend p.2.Event = PI_EVENT_COMPLETE))).flatMap
          (fun p => [Call.notify (makeTraceEvent T p.1 p.2),
                     Call.release p.2.Backend p.2.Event]) := by
  induction q generalizing k with
  | nil => rfl
  | cons Info rest ih =>
    rw [List.enumFrom_cons, List.flatMap_cons, List.filter_append, ih]
    by_cases hc : T.piEventGetInfo k Info.Backend Info.Event = PI_EVENT_COMPLETE
    · have h1 : ((removePred T k Info).1).filter (fun c => !c.isQuery)
          = [Call.notify (makeTraceEvent T k Info), Call.release Info.Backend Info.Event] := by
        simp [removePred, hc, Call.isQuery]
      rw [h1, List.filter_cons_of_pos (by simpa using hc), List.flatMap_cons]
    · have h1 : ((removePred T k Info).1).filter (fun c => !c.isQuery) = [] := by
        simp [removePred, hc, Call.isQuery]
      rw [h1, List.filter_cons_of_neg (by simpa using hc)]
      rfl

/-- C2: one iteration of the worker loop with tracing enabled keeps in the
queue exactly the entries whose queried status is not `PI_EVENT_COMPLETE`, in
their order (`MQueue.enum` pairs each entry with its position, under which
the plugin answers); it queries every entry once, front to back, and right
after the query of an entry found complete it notifies one trace event for
that entry and then releases that entry's handle, while an entry not complete
gets the query only; so the notifications and releases of the pass are, in
queue order, one notification followed by one release for each complete
entry.  The trace event is named `event_status` and carries, after the kernel
name if there is one, the four timestamps queued, submit, start, end. -/
theorem workerIteration_enabled (T : PiTable) (N : Notifier) :
    (workerIteration true T N).MQueue
      = (N.MQueue.enum.filter (fun p =>
          decide (T.piEventGetInfo p.1 p.2.Backend p.2.Event ≠ PI_EVENT_COMPLETE))).map
          Prod.snd ∧
    (workerIteration true T N).Calls
      = N.Calls ++ N.MQueue.enum.flatMap (fun p =>
          if T.piEventGetInfo p.1 p.2.Backend p.2.Event = PI_EVENT_COMPLETE then
            [Call.getStatus p.2.Backend p.2.Event PI_EVENT_COMPLETE,
             Call.notify (makeTraceEvent T p.1 p.2),
             Call.release p.2.Backend p.2.Event]
          else [Call.getStatus p.2.Backend p.2.Event
                  (T.piEventGetInfo p.1 p.2.Backend p.2.Event)]) ∧
    ((workerIteration true T N).Calls.drop N.Calls.length).filter (fun c => !c.isQuery)
      = (N.MQueue.enum.filter (fun p =>
          decide (T.piEventGetInfo p.1 p.2.Backend p.2.Event = PI_EVENT_COMPLETE))).flatMap
          (fun p => [Call.notify (makeTraceEvent T p.1 p.2),
                     Call.release p.2.Backend p.2.Event]) ∧
    (∀ (k : Nat) (Info : EventInfo),
      makeTraceEvent T k Info
        = { Name := "event_status",
            Metadata :=
              (match Info.KernelName with
                | some n => [("kernel_name", MetaValue.text n)]
                | none => []) ++
              [("event_queued", MetaValue.u64
                  (T.piEventGetProfilingInfo k Info.Backend Info.Event
                    pi_profiling_info.PI_PROFILING_INFO_COMMAND_QUEUED 0)),
               ("event_submit", MetaValue.u64
                  (T.piEventGetProfilingInfo k Info.Backend Info.Event
                    pi_profiling_info.PI_PROFILING_INFO_COMMAND_SUBMIT
                    (T.piEventGetProfilingInfo k Info.Backend Info.Event
                      pi_profiling_info.PI_PROFILING_INFO_COMMAND_QUEUED 0))),
               ("event_start", MetaValue.u64
                  (T.piEventGetProfilingInfo k Info.Backend Info.Event
                    pi_profiling_info.PI_PROFILING_INFO_COMMAND_START
                    (T.piEventGetProfilingInfo k Info.Backend Info.Event
                      pi_profiling_info.PI_PROFILING_INFO_COMMAND_SUBMIT
                      (T.piEventGetProfilingInfo k Info.Backend Info.Event
                        pi_profiling_info.PI_PROFILING_INFO_COMMAND_QUEUED 0)))),
               ("event_end", MetaValue.u64
                  (T.piEventGetProfilingInfo k Info.Backend Info.Event
                    pi_profiling_info.PI_PROFILING_INFO_COMMAND_END
                    (T.piEventGetProfilingInfo k Info.Backend Info.Event
                      pi_profiling_info.PI_PROFILING_INFO_COMMAND_START
                      (T.piEventGetProfilingInfo k Info.Backend Info.Event
                        pi_profiling_info.PI_PROFILING_INFO_COMMAND_SUBMIT
                        (T.piEventGetProfilingInfo k Info.Backend Info.Event
                          pi_profiling_info.PI_PROFILING_INFO_COMMAND_QUEUED 0)))))] }) := by
  have hq : (workerIteration true T N).MQueue = (removeIfErase T 0 N.MQueue N.Calls).1 := rfl
  have hcalls : (workerIteration true T N).Calls = (removeIfErase T 0 N.MQueue N.Calls).2 := rfl
  have hpred : (fun p : Nat × EventInfo => (removePred T p.1 p.2).1)
      = (fun p : Nat × EventInfo =>
          if T.piEventGetInfo p.1 p.2.Backend p.2.Event = PI_EVENT_COMPLETE then
            [Call.getStatus p.2.Backend p.2.Event PI_EVENT_COMPLETE,
             Call.notify (makeTraceEvent T p.1 p.2),
             Call.release p.2.Backend p.2.Event]
          else [Call.getStatus p.2.Backend p.2.Event
                  (T.piEventGetInfo p.1 p.2.Backend p.2.Event)]) := by
    funext p
    by_cases hc : T.piEventGetInfo p.1 p.2.Backend p.2.Event = PI_EVENT_COMPLETE
    · simp [removePred, hc]
    · simp [removePred, hc]
  refine ⟨?_, ?_, ?_, fun k Info => rfl⟩
  · rw [hq, removeIfErase_queue]
    congr 2
    funext p
    simp [isComplete]
  · rw [hcalls, removeIfErase_calls, hpred]
    rfl
  · rw [hcalls, removeIfErase_calls, List.drop_left]
    exact effects_of_scan T 0 N.MQueue

/-- C3: in every state reached from the empty notifier by calls of the
wrapper and iterations of the worker loop, for each handle the retains made
by the wrapper are the releases made by the worker plus the queue entries
that hold the handle (so each entry in the queue has one retain not yet
matched, and each entry that left the queue was matched by one release); the
same holds for every set of backend and handle pairs, in particular for all
of them together; and every release in the log stands right after the
notification of a trace event built for that entry, itself right after the
status query on that entry that returned `PI_EVENT_COMPLETE`. -/
theorem retain_release_balance (steps : List Step) :
    (∀ h : pi_event,
      retainCount h (run steps Notifier.init).Calls
        = releaseCount h (run steps Notifier.init).Calls
          + queueCount h (run steps Notifier.init).MQueue) ∧
    (∀ p : backend → pi_event → Bool,
      retainsOf p (run steps Notifier.init).Calls
        = releasesOf p (run steps Notifier.init).Calls
          + heldOf p (run steps Notifier.init).MQueue) ∧
    ReleasesGuarded (run steps Notifier.init).Calls :=
  ⟨fun h => run_balance (fun _ e => e == h) steps Notifier.init rfl,
   fun p => run_balance p steps Notifier.init rfl,
   run_guarded steps Notifier.init guarded_nil⟩

/-- C4, as stated, fails: a handle that the plugin hands out again after the
worker released it is released a second time. -/
theorem release_twice :
    releaseCount 7
      (run [Step.enqueue true backend.opencl PI_SUCCESS 7,
            Step.poll true ⟨fun _ _ _ => PI_EVENT_COMPLETE, fun _ _ _ _ t => t⟩,
            Step.enqueue true backend.opencl PI_SUCCESS 7,
            Step.poll true ⟨fun _ _ _ => PI_EVENT_COMPLETE, fun _ _ _ _ t => t⟩]
        Notifier.init).Calls = 2 ∧
    ¬ (releaseCount 7
      (run [Step.enqueue true backend.opencl PI_SUCCESS 7,
            Step.poll true ⟨fun _ _ _ => PI_EVENT_COMPLETE, fun _ _ _ _ t => t⟩,
            Step.enqueue true backend.opencl PI_SUCCESS 7,
            Step.poll true ⟨fun _ _ _ => PI_EVENT_COMPLETE, fun _ _ _ _ t => t⟩]
        Notifier.init).Calls ≤ 1) := by
  decide

/-- C4 (amended): no handle is released more often than the wrapper retained
it: in every run from the empty notifier the releases the worker made on a
handle are at most the retains the wrapper made on it, one per entry queued
for it; so a handle that was queued at most once is released at most once. -/
theorem release_at_most_retained (steps : List Step) (h : pi_event) :
    releaseCount h (run steps Notifier.init).Calls
      ≤ retainCount h (run steps Notifier.init).Calls ∧
    (retainCount h (run steps Notifier.init).Calls ≤ 1 →
      releaseCount h (run steps Notifier.init).Calls ≤ 1) := by
  have hb := run_balance (fun _ e => e == h) steps Notifier.init rfl
  have hle : releaseCount h (run steps Notifier.init).Calls
      ≤ retainCount h (run steps Notifier.init).Calls := by
    unfold releaseCount retainCount
    omega
  exact ⟨hle, fun h1 => le_trans hle h1⟩

/-! ## Searching and cutting the format string -/

theorem startsWith_placeholder_cons2 (c d : Char) (s t : Text) :
    startsWith placeholder (c :: d :: s) = startsWith placeholder (c :: d :: t) := by
  simp [startsWith, placeholder]

theorem startsWith_placeholder_brace (c : Char) (s : Text) :
    startsWith placeholder (c :: '{' :: s) = false := by
  simp [startsWith, placeholder]

theorem startsWith_placeholder_self (s : Text) :
    startsWith placeholder (placeholder ++ s) = true := by
  simp [startsWith, placeholder]

theorem findFrom_none_shift (pat s : Text) (i j : Nat) (h : findFrom pat s i = none) :
    findFrom pat s j = none := by
  induction s generalizing i j with
  | nil =>
    simp only [findFrom] at h ⊢
    split at h
    · simp at h
    · simp [*]
  | cons c cs ih =>
    simp only [findFrom] at h ⊢
    split at h
    · simp at h
    · simp only [*]
      exact ih (i + 1) (j + 1) h

theorem findFrom_cons (pat : Text) (c : Char) (cs : Text) (i : Nat) :
    findFrom pat (c :: cs) i
      = if startsWith pat (c :: cs) then some i else findFrom pat cs (i + 1) := rfl

theorem plain_iff (s : Text) : plain s ↔ findFrom placeholder s 0 = none := by
  unfold plain find
  simp

theorem plain_cons (c : Char) (s : Text) (h : plain (c :: s)) :
    startsWith placeholder (c :: s) = false ∧ plain s := by
  rw [plain_iff] at h ⊢
  rw [findFrom_cons] at h
  by_cases hs : startsWith placeholder (c :: s) = true
  · simp [hs] at h
  · rw [if_neg hs] at h
    exact ⟨by simpa using hs, findFrom_none_shift _ _ _ _ h⟩

theorem findFrom_hit (seg rest : Text) (i : Nat) (h : plain seg) :
    findFrom placeholder (seg ++ placeholder ++ rest) i = some (i + seg.length) := by
  induction seg generalizing i with
  | nil =>
    have := startsWith_placeholder_self rest
    simp only [placeholder, List.cons_append, List.nil_append] at this
    simp [findFrom, placeholder, this]
  | cons c seg ih =>
    obtain ⟨h1, h2⟩ := plain_cons c seg h
    have hno : startsWith placeholder (c :: (seg ++ placeholder ++ rest)) = false := by
      cases seg with
      | nil => exact startsWith_placeholder_brace c _
      | cons d seg2 =>
        rw [← h1]
        exact startsWith_placeholder_cons2 c d _ _
    rw [List.cons_append, List.cons_append, findFrom_cons, hno, if_neg (by simp), ih (i + 1) h2,
      List.length_cons]
    congr 1
    omega

theorem find_hit (pre seg rest : Text) (h : plain seg) :
    find (pre ++ (seg ++ placeholder ++ rest)) placeholder pre.length
      = some (pre.length + seg.length) := by
  unfold find
  rw [if_neg (by simp), List.drop_left]
  exact findFrom_hit seg rest pre.length h

theorem find_miss (pre tail : Text) (h : plain tail) :
    find (pre ++ tail) placeholder pre.length = none := by
  unfold find
  rw [if_neg (by simp), List.drop_left]
  rw [plain_iff] at h
  exact findFrom_none_shift _ _ _ _ h

theorem substr_piece (pre seg more : Text) :
    substr (pre ++ (seg ++ more)) pre.length (some seg.length) = some seg := by
  unfold substr
  rw [if_neg (by simp), List.drop_left]
  simp

theorem substr_rest (pre tail : Text) :
    substr (pre ++ tail) pre.length none = some tail := by
  unfold substr
  rw [if_neg (by simp), List.drop_left]

/-! ## What `formatHelper::format` renders -/

theorem format_nil (Stream Format t : Text) (LastPos : Nat)
    (hsub : substr Format LastPos none = some t) :
    formatHelper.format Stream LastPos Format [] = some (Stream ++ t) := by
  simp [formatHelper.format, hsub]

theorem format_cons_hit (Stream Format t : Text) (LastPos p : Nat) (a : LogArg)
    (rest : List LogArg) (hfind : find Format placeholder LastPos = some p)
    (hsub : substr Format LastPos (some (p - LastPos)) = some t) :
    formatHelper.format Stream LastPos Format (a :: rest)
      = formatHelper.format (Stream ++ t ++ a.str) (p + 2) Format rest := by
  simp [formatHelper.format, hfind, hsub]

theorem format_cons_miss (Stream Format t : Text) (LastPos : Nat) (a : LogArg)
    (rest : List LogArg) (hfind : find Format placeholder LastPos = none)
    (hsub : substr Format LastPos none = some t) :
    formatHelper.format Stream LastPos Format (a :: rest) = some (Stream ++ t ++ a.str) := by
  simp [formatHelper.format, hfind, hsub]

theorem weave_cons_replicate (s : Text) (pieces : List Text) (n : Nat) (tail : Text) :
    weave (s :: pieces) (List.replicate (n + 1) placeholder) tail
      = s ++ placeholder ++ weave pieces (List.replicate n placeholder) tail := rfl

theorem format_weave (pieces : List Text) (args : List LogArg) (tail pre Stream : Text)
    (hlen : pieces.length = args.length) (hplain : ∀ s ∈ pieces, plain s) :
    formatHelper.format Stream pre.length
        (pre ++ weave pieces (List.replicate args.length placeholder) tail) args
      = some (Stream ++ weave pieces (args.map LogArg.str) tail) := by
  induction pieces generalizing args pre Stream with
  | nil =>
    cases args with
    | nil => exact format_nil _ _ _ _ (substr_rest pre tail)
    | cons a rest => simp at hlen
  | cons s ps ih =>
    cases args with
    | nil => simp at hlen
    | cons a rest =>
      have hs : plain s := hplain s (List.mem_cons_self _ _)
      have hps : ∀ x ∈ ps, plain x := fun x hx => hplain x (List.mem_cons_of_mem _ hx)
      have hl : ps.length = rest.length := by simpa using hlen
      rw [List.length_cons, weave_cons_replicate]
      rw [format_cons_hit Stream _ s pre.length (pre.length + s.length) a rest
        (find_hit pre s _ hs)
        (by rw [Nat.add_sub_cancel_left, List.append_assoc]; exact substr_piece pre s _)]
      have hpre : pre ++ (s ++ placeholder ++ weave ps (List.replicate rest.length placeholder) tail)
          = (pre ++ s ++ placeholder)
            ++ weave ps (List.replicate rest.length placeholder) tail := by
        simp [List.append_assoc]
      have hpos : pre.length + s.length + 2 = (pre ++ s ++ placeholder).length := by
        simp [placeholder, Nat.add_assoc]
      rw [hpre, hpos, ih rest (pre ++ s ++ placeholder) (Stream ++ s ++ a.str) hl hps]
      simp [weave, List.append_assoc]

theorem format_excess (pieces : List Text) (front : List LogArg) (a : LogArg)
    (more : List LogArg) (tail pre Stream : Text)
    (hlen : pieces.length = front.length) (hplain : ∀ s ∈ pieces, plain s)
    (htail : plain tail) :
    formatHelper.format Stream pre.length
        (pre ++ weave pieces (List.replicate front.length placeholder) tail)
        (front ++ a :: more)
      = some (Stream ++ weave pieces (front.map LogArg.str) tail ++ a.str) := by
  induction pieces generalizing front pre Stream with
  | nil =>
    cases front with
    | nil =>
      exact format_cons_miss _ _ _ _ _ _ (find_miss pre tail htail) (substr_rest pre tail)
    | cons b rest => simp at hlen
  | cons s ps ih =>
    cases front with
    | nil => simp at hlen
    | cons b rest =>
      have hs : plain s := hplain s (List.mem_cons_self _ _)
      have hps : ∀ x ∈ ps, plain x := fun x hx => hplain x (List.mem_cons_of_mem _ hx)
      have hl : ps.length = rest.length := by simpa using hlen
      rw [List.length_cons, weave_cons_replicate, List.cons_append]
      rw [format_cons_hit Stream _ s pre.length (pre.length + s.length) b (rest ++ a :: more)
        (find_hit pre s _ hs)
        (by rw [Nat.add_sub_cancel_left, List.append_assoc]; exact substr_piece pre s _)]
      have hpre : pre ++ (s ++ placeholder ++ weave ps (List.replicate rest.length placeholder) tail)
          = (pre ++ s ++ placeholder)
            ++ weave ps (List.replicate rest.length placeholder) tail := by
        simp [List.append_assoc]
      have hpos : pre.length + s.length + 2 = (pre ++ s ++ placeholder).length := by
        simp [placeholder, Nat.add_assoc]
      rw [hpre, hpos, ih rest (pre ++ s ++ placeholder) (Stream ++ s ++ b.str) hl hps]
      simp [weave, List.append_assoc]

theorem format_no_args (Format : Text) : formatHelper.format [] 0 Format [] = some Format := by
  simp [formatHelper.format, substr]

/-- C7: when the format string is `s0 {} s1 {} .. {} sn` with `n ≥ 1`, no
`{}` inside any `si`, and there are `n` arguments, `format` (started by `log`
on an empty stream at position 0) renders `s0 str(a1) s1 .. str(an) sn`,
whatever the texts of the arguments are (they are appended as they are, a
`{}` inside one is not looked at); `log` hands that message to `logImpl`. -/
theorem format_matching_counts (pieces : List Text) (tail : Text) (args : List LogArg)
    (_hn : 1 ≤ args.length) (hlen : pieces.length = args.length)
    (hplain : ∀ s ∈ pieces, plain s) (_htail : plain tail) :
    formatHelper.format [] 0 (weave pieces (List.replicate args.length placeholder) tail) args
      = some (weave pieces (args.map LogArg.str) tail) ∧
    (∀ (Domain : XPTILogDomain) (LogLevel : Nat),
      log true Domain LogLevel (weave pieces (List.replicate args.length placeholder) tail) args
        = some (some (weave pieces (args.map LogArg.str) tail, LogLevel, Domain))) := by
  have h := format_weave pieces args tail [] [] hlen hplain
  simp only [List.length_nil, List.nil_append] at h
  exact ⟨h, fun Domain LogLevel => by simp [log, h]⟩

theorem format_matching_counts_witness :
    formatHelper.format [] 0 "{} of {}".toList [LogArg.int 3, LogArg.int 7]
      = some "3 of 7".toList :=
  (format_matching_counts [[], " of ".toList] [] [LogArg.int 3, LogArg.int 7]
    (by decide) (by decide) (by decide) (by decide)).1

/-- C8, on the code: `format("no placeholders", 1)` does not render
`no placeholders`; the argument that finds no `{}` is still written to the
stream, after the rest of the format string: the message is
`no placeholders1`. -/
theorem format_excess_argument_appended :
    formatHelper.format [] 0 "no placeholders".toList [LogArg.int 1]
      = some "no placeholders1".toList ∧
    formatHelper.format [] 0 "no placeholders".toList [LogArg.int 1]
      ≠ some "no placeholders".toList := by
  decide

/-- C9: when the format string is `s0 {} s1 {} .. s(n-1) {} rest` with no
`{}` inside any `si`, `rest` holds at least one more `{}`, and there are `n`
arguments (`n ≥ 0`), `format` renders `s0 str(a1) s1 .. str(an) rest`: the
text after the `n`-th placeholder is copied as it is, each unfilled `{}`
included; with no argument at all the message is the format string. -/
theorem format_extra_placeholders (pieces : List Text) (args : List LogArg) (r0 r1 : Text)
    (hlen : pieces.length = args.length) (hplain : ∀ s ∈ pieces, plain s) :
    formatHelper.format [] 0
        (weave pieces (List.replicate args.length placeholder) (r0 ++ placeholder ++ r1)) args
      = some (weave pieces (args.map LogArg.str) (r0 ++ placeholder ++ r1)) ∧
    (∀ Format : Text, formatHelper.format [] 0 Format [] = some Format) := by
  have h := format_weave pieces args (r0 ++ placeholder ++ r1) [] [] hlen hplain
  simp only [List.length_nil, List.nil_append] at h
  exact ⟨h, format_no_args⟩

theorem format_extra_placeholders_witness :
    formatHelper.format [] 0 "{} and {} or {}".toList
        [LogArg.int 1, LogArg.text "b".toList]
      = some "1 and b or {}".toList :=
  (format_extra_placeholders [[], " and ".toList] [LogArg.int 1, LogArg.text "b".toList]
    " or ".toList [] (by decide) (by decide)).1

/-- C10, as stated, fails: `format("{}{}", "a")` does not render `a`. -/
theorem format_two_placeholders_one_arg_not_a :
    formatHelper.format [] 0 "{}{}".toList [LogArg.text "a".toList] ≠ some "a".toList := by
  decide

/-- C10 (amended): `format("{}{}", "a")` renders `a{}`: the second
placeholder, which has no argument, stays in the message as the text `{}`. -/
theorem format_two_placeholders_one_arg :
    formatHelper.format [] 0 "{}{}".toList [LogArg.text "a".toList] = some "a{}".toList := by
  decide

/-! ## Every format string is of the shape the theorems speak of -/

theorem plain_cons_intro (c : Char) (s : Text)
    (h1 : startsWith placeholder (c :: s) = false) (h2 : plain s) : plain (c :: s) := by
  rw [plain_iff] at h2 ⊢
  rw [findFrom_cons, h1, if_neg (by simp)]
  exact findFrom_none_shift _ _ _ _ h2

theorem exists_weave_of_length (n : Nat) (fmt : Text) (hn : fmt.length ≤ n) :
    ∃ (pieces : List Text) (tail : Text), (∀ s ∈ pieces, plain s) ∧ plain tail ∧
      fmt = weave pieces (List.replicate pieces.length placeholder) tail := by
  induction n generalizing fmt with
  | zero =>
    have : fmt = [] := List.length_eq_zero.mp (Nat.le_zero.mp hn)
    subst this
    exact ⟨[], [], by simp, by decide, rfl⟩
  | succ n ih =>
    cases fmt with
    | nil => exact ⟨[], [], by simp, by decide, rfl⟩
    | cons c rest =>
      have hrest : rest.length ≤ n := by simpa using hn
      by_cases hs : startsWith placeholder (c :: rest) = true
      · cases rest with
        | nil => simp [startsWith, placeholder] at hs
        | cons d rest2 =>
          have hcd : c = '{' ∧ d = '}' := by
            simp only [startsWith, placeholder, Bool.and_true, Bool.and_eq_true,
              beq_iff_eq] at hs
            exact ⟨hs.1.symm, hs.2.symm⟩
          obtain ⟨ps, tail, hps, htail, heq⟩ := ih rest2 (by simp at hrest; omega)
          refine ⟨[] :: ps, tail, ?_, htail, ?_⟩
          · intro s hsmem
            rcases List.mem_cons.mp hsmem with h | h
            · subst h; decide
            · exact hps s h
          · rw [List.length_cons, weave_cons_replicate, ← heq, hcd.1, hcd.2]
            rfl
      · have hs' : startsWith placeholder (c :: rest) = false := by simpa using hs
        obtain ⟨ps, tail, hps, htail, heq⟩ := ih rest hrest
        cases ps with
        | nil =>
          have : rest = tail := heq
          subst this
          exact ⟨[], c :: rest, by simp, plain_cons_intro c rest hs' htail, rfl⟩
        | cons s ps2 =>
          rw [List.length_cons, weave_cons_replicate] at heq
          have hps_s : plain s := hps s (List.mem_cons_self _ _)
          have hcs : startsWith placeholder (c :: s) = false := by
            cases s with
            | nil => simp [startsWith, placeholder]
            | cons d s2 =>
              rw [← hs', heq]
              exact startsWith_placeholder_cons2 c d _ _
          refine ⟨(c :: s) :: ps2, tail, ?_, htail, ?_⟩
          · intro x hx
            rcases List.mem_cons.mp hx with h | h
            · subst h; exact plain_cons_intro c s hcs hps_s
            · exact hps x (List.mem_cons_of_mem _ h)
          · rw [List.length_cons, weave_cons_replicate, heq]
            simp [List.append_assoc]

theorem exists_weave (fmt : Text) :
    ∃ (pieces : List Text) (tail : Text), (∀ s ∈ pieces, plain s) ∧ plain tail ∧
      fmt = weave pieces (List.replicate pieces.length placeholder) tail :=
  exists_weave_of_length fmt.length fmt (Nat.le_refl _)

/-! ## The wrapper over `piQueueCreate` -/

/-- C11: the wrapper over `piQueueCreate` calls the captured original once,
with the context, device and queue it was given and with the properties
`p | PI_QUEUE_PROFILING_ENABLE`, and returns what the original returns (result
and state of the plugin): the profiling bit is set, every other bit is the
bit of `p`, the value is `p` itself when `p` has the bit already, and it
stays a 64-bit value.  An original that notes its calls has noted exactly one
more call afterwards. -/
theorem piQueueCreate_sets_profiling :
    (∀ (σ : Type)
        (MQueueCreate : backend → Nat → Nat → pi_queue_properties → Nat → σ → pi_result × σ)
        (Backend : backend) (context device : Nat) (p : pi_queue_properties) (queue : Nat)
        (s : σ),
      piQueueCreate MQueueCreate Backend context device p queue s
        = MQueueCreate Backend context device (p ||| PI_QUEUE_PROFILING_ENABLE) queue s) ∧
    (∀ (Res : pi_result) (Backend : backend) (context device : Nat)
        (p : pi_queue_properties) (queue : Nat) (calls : List QueueCreateCall),
      piQueueCreate (recordingQueueCreate Res) Backend context device p queue calls
        = (Res, calls ++ [⟨Backend, context, device, p ||| PI_QUEUE_PROFILING_ENABLE, queue⟩])) ∧
    (∀ p : pi_queue_properties,
      (p ||| PI_QUEUE_PROFILING_ENABLE).testBit 1 = true ∧
      (∀ i : Nat, i ≠ 1 → (p ||| PI_QUEUE_PROFILING_ENABLE).testBit i = p.testBit i) ∧
      (p.testBit 1 = true → p ||| PI_QUEUE_PROFILING_ENABLE = p) ∧
      (p < 2 ^ 64 → p ||| PI_QUEUE_PROFILING_ENABLE < 2 ^ 64)) := by
  have hflag : ∀ i : Nat, PI_QUEUE_PROFILING_ENABLE.testBit i = decide (i = 1) := by
    intro i
    have h2 : PI_QUEUE_PROFILING_ENABLE = 2 ^ 1 := rfl
    rw [h2, Nat.testBit_two_pow]
    by_cases hi : i = 1
    · simp [hi]
    · have : ¬ (1 = i) := fun h => hi h.symm
      simp [hi, this]
  refine ⟨fun _ _ _ _ _ _ _ _ => rfl, fun _ _ _ _ _ _ _ => rfl, fun p => ⟨?_, ?_, ?_, ?_⟩⟩
  · rw [Nat.testBit_or, hflag]
    simp
  · intro i hi
    rw [Nat.testBit_or, hflag]
    simp [hi]
  · intro hp
    apply Nat.eq_of_testBit_eq
    intro i
    rw [Nat.testBit_or, hflag]
    by_cases hi : i = 1
    · subst hi
      simp [hp]
    · simp [hi]
  · intro hp
    exact Nat.or_lt_two_pow hp (by decide)

theorem piQueueCreate_sets_profiling_witness :
    piQueueCreate (recordingQueueCreate PI_SUCCESS) backend.opencl 11 12 5 13 []
      = (PI_SUCCESS, [⟨backend.opencl, 11, 12, 7, 13⟩]) ∧
    ((6 : Nat).testBit 1 = true → 6 ||| PI_QUEUE_PROFILING_ENABLE = 6) :=
  ⟨piQueueCreate_sets_profiling.2.1 PI_SUCCESS backend.opencl 11 12 5 13 [],
   (piQueueCreate_sets_profiling.2.2 6).2.2.1⟩

/-! ## Installing the wrappers -/

theorem installTimes_table (Backend : backend) (n : Nat) (Table : PiFunctionTable)
    (O : Originals) :
    (installTimes Backend (n + 1) Table O).1
      = { Table with
          piQueueCreate := FnPtr.wrappedQueueCreate Backend,
          piEnqueueKernelLaunch := FnPtr.wrappedEnqueueKernelLaunch Backend } := by
  induction n with
  | zero => rfl
  | succ n ih =>
    have hstep : (installTimes Backend (n + 1 + 1) Table O).1
        = (wrapAPIs Backend (installTimes Backend (n + 1) Table O).1
            (installTimes Backend (n + 1) Table O).2).1 := rfl
    rw [hstep, ih]
    rfl

theorem installTimes_originals (Backend : backend) (n : Nat) (Table : PiFunctionTable)
    (O : Originals) :
    (installTimes Backend (n + 1) Table O).2.MEventRelease Backend
        = some (installTimes Backend n Table O).1.piEventRelease ∧
    (installTimes Backend (n + 1) Table O).2.MEventRetain Backend
        = some (installTimes Backend n Table O).1.piEventRetain ∧
    (installTimes Backend (n + 1) Table O).2.MEventGetInfo Backend
        = some (installTimes Backend n Table O).1.piEventGetInfo ∧
    (installTimes Backend (n + 1) Table O).2.MEventGetProfilingInfo Backend
        = some (installTimes Backend n Table O).1.piEventGetProfilingInfo ∧
    (installTimes Backend (n + 1) Table O).2.MQueueCreate Backend
        = some (installTimes Backend n Table O).1.piQueueCreate ∧
    (installTimes Backend (n + 1) Table O).2.MEnqueueKernel Backend
        = some (installTimes Backend n Table O).1.piEnqueueKernelLaunch := by
  simp [installTimes, wrapAPIs, assign]

theorem initPIOverrides_dispatch (P : plugin) (O : Originals) :
    (match P.Backend with
      | backend.opencl => wrapAPIs backend.opencl P.PiFunctionTable O
      | backend.ext_oneapi_level_zero =>
        wrapAPIs backend.ext_oneapi_level_zero P.PiFunctionTable O
      | backend.ext_oneapi_cuda => wrapAPIs backend.ext_oneapi_cuda P.PiFunctionTable O
      | backend.ext_oneapi_hip => wrapAPIs backend.ext_oneapi_hip P.PiFunctionTable O
      | backend.ext_intel_esimd_emulator =>
        wrapAPIs backend.ext_intel_esimd_emulator P.PiFunctionTable O)
      = wrapAPIs P.Backend P.PiFunctionTable O := by
  cases h : P.Backend <;> rfl

theorem initPIOverrides_cons (P : plugin) (Plugins : List plugin) (O : Originals) :
    initPIOverrides true (P :: Plugins) O
      = ({ P with PiFunctionTable := (wrapAPIs P.Backend P.PiFunctionTable O).1 }
          :: (initPIOverrides true Plugins (wrapAPIs P.Backend P.PiFunctionTable O).2).1,
         (initPIOverrides true Plugins (wrapAPIs P.Backend P.PiFunctionTable O).2).2) := by
  simp only [initPIOverrides, Bool.not_true, Bool.false_eq_true, if_false,
    initPIOverrides_dispatch]

theorem initPIOverrides_other (Plugins : List plugin) (O : Originals) (b : backend)
    (hb : ∀ P ∈ Plugins, P.Backend ≠ b) :
    (initPIOverrides true Plugins O).2.MQueueCreate b = O.MQueueCreate b ∧
    (initPIOverrides true Plugins O).2.MEnqueueKernel b = O.MEnqueueKernel b := by
  induction Plugins generalizing O with
  | nil => exact ⟨rfl, rfl⟩
  | cons P rest ih =>
    rw [initPIOverrides_cons]
    have hP : P.Backend ≠ b := hb P (List.mem_cons_self _ _)
    have hP' : ¬ (b = P.Backend) := fun h => hP h.symm
    obtain ⟨h1, h2⟩ := ih (wrapAPIs P.Backend P.PiFunctionTable O).2
      (fun Q hQ => hb Q (List.mem_cons_of_mem _ hQ))
    simp only [h1, h2]
    simp [wrapAPIs, assign, hP']

theorem initPIOverrides_captures (Plugins : List plugin) (O : Originals)
    (hd : (Plugins.map (fun P => P.Backend)).Nodup) (P : plugin) (hP : P ∈ Plugins) :
    (initPIOverrides true Plugins O).2.MQueueCreate P.Backend
        = some P.PiFunctionTable.piQueueCreate ∧
    (initPIOverrides true Plugins O).2.MEnqueueKernel P.Backend
        = some P.PiFunctionTable.piEnqueueKernelLaunch := by
  induction Plugins generalizing O with
  | nil => simp at hP
  | cons Q rest ih =>
    rw [initPIOverrides_cons]
    rw [List.map_cons, List.nodup_cons] at hd
    rcases List.mem_cons.mp hP with h | h
    · subst h
      have hother : ∀ R ∈ rest, R.Backend ≠ P.Backend := by
        intro R hR heq
        exact hd.1 (List.mem_map.mpr ⟨R, hR, heq⟩)
      obtain ⟨h1, h2⟩ := initPIOverrides_other rest
        (wrapAPIs P.Backend P.PiFunctionTable O).2 P.Backend hother
      simp only [h1, h2]
      simp [wrapAPIs, assign]
    · exact ih (wrapAPIs Q.Backend Q.PiFunctionTable O).2 hd.2 h

/-- C12, as stated, fails: `wrapAPIs` has no guard, and a second install on
the same table stores this layer's own wrappers as the originals of
`piQueueCreate` and `piEnqueueKernelLaunch`. -/
theorem wrapAPIs_twice_captures_wrappers :
    (installTimes backend.opencl 2
        ⟨FnPtr.plugin 1, FnPtr.plugin 2, FnPtr.plugin 3, FnPtr.plugin 4, FnPtr.plugin 5,
          FnPtr.plugin 6⟩ Originals.empty).2.MQueueCreate backend.opencl
      = some (FnPtr.wrappedQueueCreate backend.opencl) ∧
    (installTimes backend.opencl 2
        ⟨FnPtr.plugin 1, FnPtr.plugin 2, FnPtr.plugin 3, FnPtr.plugin 4, FnPtr.plugin 5,
          FnPtr.plugin 6⟩ Originals.empty).2.MEnqueueKernel backend.opencl
      = some (FnPtr.wrappedEnqueueKernelLaunch backend.opencl) ∧
    (installTimes backend.opencl 2
        ⟨FnPtr.plugin 1, FnPtr.plugin 2, FnPtr.plugin 3, FnPtr.plugin 4, FnPtr.plugin 5,
          FnPtr.plugin 6⟩ Originals.empty).2.MQueueCreate backend.opencl
      ≠ some (FnPtr.plugin 5) := by
  decide

/-- C12 (amended): `wrapAPIs` has no setup guard; every install stores in the
maps what the table holds at that moment and puts the two wrappers into the
table.  So the first install on a table maps the backend to the table's
original `piQueueCreate` and `piEnqueueKernelLaunch` (and `initPIOverrides`,
given plugins of pairwise different backends, captures the originals of each
of them); the four event functions, whose slots are never overwritten, stay
the table's originals after any number of installs; from the second install
on the same table on, the maps hold this layer's own wrappers for
`piQueueCreate` and `piEnqueueKernelLaunch`. -/
theorem wrapAPIs_captures_current_table (Backend : backend) (Table : PiFunctionTable)
    (O : Originals) :
    ((wrapAPIs Backend Table O).2.MQueueCreate Backend = some Table.piQueueCreate ∧
     (wrapAPIs Backend Table O).2.MEnqueueKernel Backend = some Table.piEnqueueKernelLaunch ∧
     (wrapAPIs Backend Table O).1
       = { Table with
           piQueueCreate := FnPtr.wrappedQueueCreate Backend,
           piEnqueueKernelLaunch := FnPtr.wrappedEnqueueKernelLaunch Backend }) ∧
    (∀ (Plugins : List plugin), (Plugins.map (fun P => P.Backend)).Nodup →
      ∀ P ∈ Plugins,
        (initPIOverrides true Plugins O).2.MQueueCreate P.Backend
          = some P.PiFunctionTable.piQueueCreate ∧
        (initPIOverrides true Plugins O).2.MEnqueueKernel P.Backend
          = some P.PiFunctionTable.piEnqueueKernelLaunch) ∧
    (∀ n : Nat,
      (installTimes Backend (n + 1) Table O).2.MEventRelease Backend
        = some Table.piEventRelease ∧
      (installTimes Backend (n + 1) Table O).2.MEventRetain Backend
        = some Table.piEventRetain ∧
      (installTimes Backend (n + 1) Table O).2.MEventGetInfo Backend
        = some Table.piEventGetInfo ∧
      (installTimes Backend (n + 1) Table O).2.MEventGetProfilingInfo Backend
        = some Table.piEventGetProfilingInfo) ∧
    (∀ n : Nat,
      (installTimes Backend (n + 2) Table O).2.MQueueCreate Backend
        = some (FnPtr.wrappedQueueCreate Backend) ∧
      (installTimes Backend (n + 2) Table O).2.MEnqueueKernel Backend
        = some (FnPtr.wrappedEnqueueKernelLaunch Backend)) := by
  refine ⟨⟨by simp [wrapAPIs, assign], by simp [wrapAPIs, assign], rfl⟩,
    fun Plugins hd P hP => initPIOverrides_captures Plugins O hd P hP, fun n => ?_, fun n => ?_⟩
  · obtain ⟨h1, h2, h3, h4, _, _⟩ := installTimes_originals Backend n Table O
    rw [h1, h2, h3, h4]
    cases n with
    | zero => exact ⟨rfl, rfl, rfl, rfl⟩
    | succ m =>
      rw [installTimes_table]
      exact ⟨rfl, rfl, rfl, rfl⟩
  · obtain ⟨_, _, _, _, h5, h6⟩ := installTimes_originals Backend (n + 1) Table O
    rw [h5, h6, installTimes_table]
    exact ⟨rfl, rfl⟩

theorem wrapAPIs_captures_current_table_witness :
    (initPIOverrides true
        [⟨backend.opencl, ⟨FnPtr.plugin 1, FnPtr.plugin 2, FnPtr.plugin 3, FnPtr.plugin 4,
            FnPtr.plugin 5, FnPtr.plugin 6⟩⟩,
         ⟨backend.ext_oneapi_cuda, ⟨FnPtr.plugin 11, FnPtr.plugin 12, FnPtr.plugin 13,
            FnPtr.plugin 14, FnPtr.plugin 15, FnPtr.plugin 16⟩⟩]
        Originals.empty).2.MQueueCreate backend.ext_oneapi_cuda
      = some (FnPtr.plugin 15) :=
  ((wrapAPIs_captures_current_table backend.opencl
      ⟨FnPtr.plugin 1, FnPtr.plugin 2, FnPtr.plugin 3, FnPtr.plugin 4, FnPtr.plugin 5,
        FnPtr.plugin 6⟩ Originals.empty).2.1
    [⟨backend.opencl, ⟨FnPtr.plugin 1, FnPtr.plugin 2, FnPtr.plugin 3, FnPtr.plugin 4,
        FnPtr.plugin 5, FnPtr.plugin 6⟩⟩,
     ⟨backend.ext_oneapi_cuda, ⟨FnPtr.plugin 11, FnPtr.plugin 12, FnPtr.plugin 13,
        FnPtr.plugin 14, FnPtr.plugin 15, FnPtr.plugin 16⟩⟩]
    (by decide)
    ⟨backend.ext_oneapi_cuda, ⟨FnPtr.plugin 11, FnPtr.plugin 12, FnPtr.plugin 13,
        FnPtr.plugin 14, FnPtr.plugin 15, FnPtr.plugin 16⟩⟩
    (by decide)).1

/-! ## Streams of the registry -/

theorem insert_nodup (S : StreamSet) (name : String) (h : S.Nodup) :
    (S.insert name).Nodup := by
  unfold StreamSet.insert
  by_cases hm : name ∈ S
  · rw [if_pos hm]
    exact h
  · rw [if_neg hm]
    exact List.nodup_append.mpr ⟨h, List.nodup_singleton _, by
      intro x hx hx'
      rw [List.mem_singleton] at hx'
      exact hm (hx' ▸ hx)⟩

theorem mem_insert (S : StreamSet) (name x : String) :
    x ∈ S.insert name ↔ x ∈ S ∨ x = name := by
  unfold StreamSet.insert
  by_cases hm : name ∈ S
  · rw [if_pos hm]
    constructor
    · exact Or.inl
    · rintro (h | h)
      · exact h
      · exact h ▸ hm
  · rw [if_neg hm]
    simp

theorem activeStreamsAfter_spec (calls : List StreamInit) (S : StreamSet) (h : S.Nodup) :
    (activeStreamsAfter calls S).Nodup ∧
    ∀ x : String, x ∈ activeStreamsAfter calls S
      ↔ x ∈ S ∨ x ∈ calls.map (fun c => c.StreamName) := by
  induction calls generalizing S with
  | nil => simp [activeStreamsAfter, h]
  | cons c rest ih =>
    have hstep : activeStreamsAfter (c :: rest) S
        = activeStreamsAfter rest (S.insert c.StreamName) := rfl
    obtain ⟨h1, h2⟩ := ih (S.insert c.StreamName) (insert_nodup S c.StreamName h)
    rw [hstep]
    refine ⟨h1, fun x => ?_⟩
    rw [h2, mem_insert, List.map_cons, List.mem_cons]
    tauto

/-- C13: after any sequence of calls of `initializeStream` on a fresh
registry, `MActiveStreams` holds each name that was passed exactly once and
nothing else, so it has as many elements as there are distinct names; the
destructor calls `xptiFinalize` once for each of these names and for no other,
and calls `xptiFrameworkFinalize` once, as its last call, after all the calls
of `xptiFinalize`. -/
theorem stream_registration_idempotent (calls : List StreamInit) :
    (activeStreamsAfter calls []).Nodup ∧
    (∀ x : String, x ∈ activeStreamsAfter calls [] ↔ x ∈ calls.map (fun c => c.StreamName)) ∧
    (activeStreamsAfter calls []).length = (calls.map (fun c => c.StreamName)).toFinset.card ∧
    (∀ x : String,
      (destroyRegistry (activeStreamsAfter calls [])).count (XptiCall.xptiFinalize x)
        = if x ∈ calls.map (fun c => c.StreamName) then 1 else 0) ∧
    (destroyRegistry (activeStreamsAfter calls [])).count XptiCall.xptiFrameworkFinalize = 1 ∧
    destroyRegistry (activeStreamsAfter calls [])
      = (activeStreamsAfter calls []).map XptiCall.xptiFinalize
        ++ [XptiCall.xptiFrameworkFinalize] := by
  obtain ⟨hnd, hmem⟩ := activeStreamsAfter_spec calls [] List.nodup_nil
  have hmem' : ∀ x : String,
      x ∈ activeStreamsAfter calls [] ↔ x ∈ calls.map (fun c => c.StreamName) := by
    intro x
    rw [hmem]
    simp
  have hinj : Function.Injective XptiCall.xptiFinalize := by
    intro a b hab
    injection hab
  refine ⟨hnd, hmem', ?_, fun x => ?_, ?_, rfl⟩
  · rw [← List.toFinset_card_of_nodup hnd]
    congr 1
    ext x
    simp only [List.mem_toFinset]
    exact hmem' x
  · unfold destroyRegistry
    rw [List.count_append, List.count_map_of_injective _ _ hinj]
    have h0 : List.count (XptiCall.xptiFinalize x) [XptiCall.xptiFrameworkFinalize] = 0 := by
      apply List.count_eq_zero_of_not_mem
      intro h
      rw [List.mem_singleton] at h
      cases h
    rw [h0, Nat.add_zero]
    by_cases hx : x ∈ calls.map (fun c => c.StreamName)
    · rw [if_pos hx]
      exact List.count_eq_one_of_mem hnd ((hmem' x).mpr hx)
    · rw [if_neg hx]
      exact List.count_eq_zero_of_not_mem (fun h => hx ((hmem' x).mp h))
  · unfold destroyRegistry
    rw [List.count_append]
    have h0 : List.count XptiCall.xptiFrameworkFinalize
        ((activeStreamsAfter calls []).map XptiCall.xptiFinalize) = 0 := by
      apply List.count_eq_zero_of_not_mem
      intro h
      obtain ⟨y, _, hy⟩ := List.mem_map.mp h
      cases hy
    rw [h0]
    decide

/-! ## Handles in the queue -/

theorem removeIfErase_sublist (T : PiTable) (k : Nat) (q : List EventInfo) (C : List Call) :
    (removeIfErase T k q C).1.Sublist q := by
  rw [removeIfErase_queue]
  have h := (List.filter_sublist (p := fun p : Nat × EventInfo => !isComplete T p.1 p.2)
    (q.enumFrom k)).map Prod.snd
  rwa [List.enumFrom_map_snd] at h

theorem tracedHandles_cons (s : Step) (steps : List Step) :
    tracedHandles (s :: steps)
      = (match s with
          | Step.enqueue true _ _ e => [e]
          | _ => []) ++ tracedHandles steps := by
  unfold tracedHandles
  rw [List.filterMap_cons]
  split <;> split <;> simp_all

theorem run_queue_sublist (steps : List Step) (N : Notifier) (pre : List pi_event)
    (h : (N.MQueue.map (fun i => i.Event)).Sublist pre) :
    ((run steps N).MQueue.map (fun i => i.Event)).Sublist (pre ++ tracedHandles steps) := by
  induction steps generalizing N pre with
  | nil => simpa [run, tracedHandles] using h
  | cons s rest ih =>
    rw [run_cons, tracedHandles_cons, ← List.append_assoc]
    apply ih
    cases s with
    | enqueue t b Res e =>
      cases t
      · simpa [Step.apply, piEnqueueKernelLaunch] using h
      · simp only [Step.apply, piEnqueueKernelLaunch, Bool.not_true, Bool.false_eq_true,
          if_false, List.map_append, List.map_cons, List.map_nil]
        exact h.append (List.Sublist.refl _)
    | poll t T =>
      cases t
      · simpa [Step.apply, workerIteration] using h
      · simp only [Step.apply, workerIteration, Bool.not_true, Bool.false_eq_true, if_false,
          List.append_nil]
        exact ((removeIfErase_sublist T 0 N.MQueue N.Calls).map _).trans h

/-- C15, as stated, fails: a traced call whose original fails and leaves in
`*event` the handle of the call before is queued as well, so the queue holds
two entries for handle 7. -/
theorem queue_holds_handle_twice :
    (run [Step.enqueue true backend.opencl PI_SUCCESS 7,
          Step.enqueue true backend.opencl (-5) 7] Notifier.init).MQueue
      = [⟨backend.opencl, 7, none⟩, ⟨backend.opencl, 7, none⟩] ∧
    ¬ ((run [Step.enqueue true backend.opencl PI_SUCCESS 7,
          Step.enqueue true backend.opencl (-5) 7] Notifier.init).MQueue.map
        (fun i => i.Event)).Nodup := by
  decide

theorem apply_traced_some (s : Step) (N : Notifier) (e : pi_event)
    (h : s.traced = some e) :
    (s.apply N).MQueue.map (fun i => i.Event) = N.MQueue.map (fun i => i.Event) ++ [e] := by
  cases s with
  | enqueue t b Res e' =>
    cases t
    · simp [Step.traced] at h
    · simp only [Step.traced, Option.some.injEq] at h
      subst h
      simp [Step.apply, piEnqueueKernelLaunch]
  | poll t T => simp [Step.traced] at h

theorem apply_traced_none (s : Step) (N : Notifier) (h : s.traced = none) :
    ((s.apply N).MQueue.map (fun i => i.Event)).Sublist (N.MQueue.map (fun i => i.Event)) := by
  cases s with
  | enqueue t b Res e =>
    cases t
    · exact List.Sublist.refl _
    · simp [Step.traced] at h
  | poll t T =>
    cases t
    · exact List.Sublist.refl _
    · exact (removeIfErase_sublist T 0 N.MQueue N.Calls).map _

theorem tracedHandles_cons_traced (s : Step) (steps : List Step) :
    tracedHandles (s :: steps)
      = (match s.traced with
          | some e => [e]
          | none => []) ++ tracedHandles steps := by
  rw [tracedHandles_cons]
  cases s with
  | enqueue t b Res e => cases t <;> rfl
  | poll t T => rfl

theorem freshCalls_cons (s : Step) (rest : List Step) (N : Notifier) :
    freshCalls (s :: rest) N = true
      ↔ (∀ e, s.traced = some e → e ∉ N.MQueue.map (fun i => i.Event))
        ∧ freshCalls rest (s.apply N) = true := by
  have hdef : freshCalls (s :: rest) N
      = ((match s.traced with
          | some e => decide (e ∉ N.MQueue.map (fun i => i.Event))
          | none => true) && freshCalls rest (s.apply N)) := rfl
  rw [hdef]
  cases h : s.traced with
  | none => simp
  | some e => simp

theorem fresh_nodup (steps : List Step) (N : Notifier)
    (hN : (N.MQueue.map (fun i => i.Event)).Nodup) (hf : freshCalls steps N = true) :
    ((run steps N).MQueue.map (fun i => i.Event)).Nodup := by
  induction steps generalizing N with
  | nil => exact hN
  | cons s rest ih =>
    rw [freshCalls_cons] at hf
    rw [run_cons]
    apply ih _ _ hf.2
    cases h : s.traced with
    | none => exact (apply_traced_none s N h).nodup hN
    | some e =>
      rw [apply_traced_some s N e h]
      exact List.nodup_append.mpr ⟨hN, List.nodup_singleton _, by
        intro x hx hx'
        rw [List.mem_singleton] at hx'
        exact hf.1 e h (hx' ▸ hx)⟩

theorem freshCalls_take (steps : List Step) (N : Notifier) (n : Nat)
    (hf : freshCalls steps N = true) : freshCalls (steps.take n) N = true := by
  induction steps generalizing N n with
  | nil => simpa using hf
  | cons s rest ih =>
    cases n with
    | zero => rfl
    | succ m =>
      rw [List.take_succ_cons, freshCalls_cons]
      rw [freshCalls_cons] at hf
      exact ⟨hf.1, ih _ _ hf.2⟩

theorem fresh_of_nodup_states (steps : List Step) (N : Notifier)
    (h : ∀ n : Nat, ((run (steps.take n) N).MQueue.map (fun i => i.Event)).Nodup) :
    freshCalls steps N = true := by
  induction steps generalizing N with
  | nil => rfl
  | cons s rest ih =>
    rw [freshCalls_cons]
    constructor
    · intro e he hmem
      have h1 := h 1
      rw [List.take_succ_cons, List.take_zero, run_cons, run_nil, apply_traced_some s N e he,
        List.nodup_append] at h1
      exact h1.2.2 hmem (List.mem_singleton_self e)
    · apply ih
      intro n
      have hn := h (n + 1)
      rwa [List.take_succ_cons, run_cons] at hn

theorem fresh_of_traced_nodup (steps : List Step) (N : Notifier) (pre : List pi_event)
    (hsub : (N.MQueue.map (fun i => i.Event)).Sublist pre)
    (hd : (pre ++ tracedHandles steps).Nodup) : freshCalls steps N = true := by
  induction steps generalizing N pre with
  | nil => rfl
  | cons s rest ih =>
    rw [freshCalls_cons]
    rw [tracedHandles_cons_traced] at hd
    cases h : s.traced with
    | none =>
      rw [h] at hd
      refine ⟨(fun e he => by cases he), ih _ pre ((apply_traced_none s N h).trans hsub) ?_⟩
      simpa using hd
    | some e =>
      rw [h] at hd
      have hd' : ((pre ++ [e]) ++ tracedHandles rest).Nodup := by
        simpa [List.append_assoc] using hd
      refine ⟨fun e' he' hmem => ?_, ih _ (pre ++ [e]) ?_ hd'⟩
      · simp only [Option.some.injEq] at he'
        subst he'
        have hpre : ((pre ++ [e]).Nodup) := (List.nodup_append.mp hd').1
        rw [List.nodup_append] at hpre
        exact hpre.2.2 (hsub.subset hmem) (List.mem_singleton_self _)
      · rw [apply_traced_some s N e h]
        exact hsub.append (List.Sublist.refl _)

/-- C15 (amended): the wrapper appends without looking for an entry of the
same handle.  In every state reached from the empty notifier the handles of
the queue's entries are, in order, among the handles the traced calls of the
wrapper found in `*event`.  They are pairwise distinct in every state of a
run exactly when every traced call found in `*event` a handle that no entry
of the queue held at that moment; this is so in particular when the handles
found by the traced calls are pairwise distinct. -/
theorem queue_handles_distinct (steps : List Step) :
    ((run steps Notifier.init).MQueue.map (fun i => i.Event)).Sublist (tracedHandles steps) ∧
    (freshCalls steps Notifier.init = true
      ↔ ∀ n : Nat,
          ((run (steps.take n) Notifier.init).MQueue.map (fun i => i.Event)).Nodup) ∧
    (freshCalls steps Notifier.init = true →
      ((run steps Notifier.init).MQueue.map (fun i => i.Event)).Nodup) ∧
    ((tracedHandles steps).Nodup → freshCalls steps Notifier.init = true) := by
  have h := run_queue_sublist steps Notifier.init [] (List.Sublist.refl _)
  rw [List.nil_append] at h
  refine ⟨h, ⟨fun hf n => ?_, fresh_of_nodup_states steps Notifier.init⟩,
    fun hf => fresh_nodup steps Notifier.init List.nodup_nil hf,
    fun hd => fresh_of_traced_nodup steps Notifier.init [] (List.Sublist.refl _)
      (by simpa using hd)⟩
  exact fresh_nodup (steps.take n) Notifier.init List.nodup_nil
    (freshCalls_take steps Notifier.init n hf)

theorem queue_handles_distinct_witness :
    ¬ (tracedHandles
        [Step.enqueue true backend.opencl PI_SUCCESS 7,
         Step.poll true ⟨fun _ _ _ => PI_EVENT_COMPLETE, fun _ _ _ _ t => t⟩,
         Step.enqueue true backend.opencl PI_SUCCESS 7]).Nodup ∧
    ((run [Step.enqueue true backend.opencl PI_SUCCESS 7,
           Step.poll true ⟨fun _ _ _ => PI_EVENT_COMPLETE, fun _ _ _ _ t => t⟩,
           Step.enqueue true backend.opencl PI_SUCCESS 7]
        Notifier.init).MQueue.map (fun i => i.Event)).Nodup :=
  ⟨by decide,
   (queue_handles_distinct
      [Step.enqueue true backend.opencl PI_SUCCESS 7,
       Step.poll true ⟨fun _ _ _ => PI_EVENT_COMPLETE, fun _ _ _ _ t => t⟩,
       Step.enqueue true backend.opencl PI_SUCCESS 7]).2.2.1 (by decide)⟩

/-! ## Emission order -/

theorem enumFrom_filter_snd (f : EventInfo → Bool) (g : Nat × EventInfo → Bool)
    (hg : ∀ (k : Nat) (e : EventInfo), g (k, e) = f e) (k : Nat) (q : List EventInfo) :
    ((q.enumFrom k).filter g).map Prod.snd = q.filter f := by
  induction q generalizing k with
  | nil => rfl
  | cons e rest ih =>
    rw [List.enumFrom_cons]
    by_cases h : f e = true
    · rw [List.filter_cons_of_pos (by rw [hg]; exact h), List.filter_cons_of_pos h,
        List.map_cons, ih]
    · rw [List.filter_cons_of_neg (by rw [hg]; exact h), List.filter_cons_of_neg h, ih]

theorem flatMap_emit_map (T : PiTable) (l : List (Nat × EventInfo)) :
    (l.map (fun p => (T, p.1, p.2))).flatMap emit
      = l.flatMap (fun p => [Call.notify (makeTraceEvent T p.1 p.2),
                             Call.release p.2.Backend p.2.Event]) := by
  induction l with
  | nil => rfl
  | cons p rest ih =>
    rw [List.map_cons, List.flatMap_cons, List.flatMap_cons, ih]
    rfl

theorem scan_once (c : backend → pi_event → Nat) (j : Nat) (T : PiTable) (N : Notifier)
    (hT : ∀ (k : Nat) (b : backend) (e : pi_event),
      T.piEventGetInfo k b e = PI_EVENT_COMPLETE ↔ c b e ≤ j)
    (hq : ∀ i ∈ N.MQueue, j ≤ c i.Backend i.Event) :
    (workerIteration true T N).MQueue
      = N.MQueue.filter (fun i => decide (j + 1 ≤ c i.Backend i.Event)) ∧
    ∃ (X : List Call) (L : List (PiTable × Nat × EventInfo)),
      (workerIteration true T N).Calls = N.Calls ++ X ∧
      X.filter (fun x => !x.isQuery) = L.flatMap emit ∧
      L.map (fun x => x.2.2) = N.MQueue.filter (fun i => decide (c i.Backend i.Event = j)) := by
  have hqueue : (workerIteration true T N).MQueue = (removeIfErase T 0 N.MQueue N.Calls).1 := rfl
  have hcalls : (workerIteration true T N).Calls = (removeIfErase T 0 N.MQueue N.Calls).2 := rfl
  constructor
  · rw [hqueue, removeIfErase_queue,
      enumFrom_filter_snd (fun i => decide (j + 1 ≤ c i.Backend i.Event))
        (fun p => !isComplete T p.1 p.2)]
    intro k e
    by_cases hc : c e.Backend e.Event ≤ j
    · have h1 : ¬ (j + 1 ≤ c e.Backend e.Event) := by omega
      simp [isComplete, (hT k e.Backend e.Event).mpr hc, h1]
    · have h1 : j + 1 ≤ c e.Backend e.Event := by omega
      have h2 : ¬ (T.piEventGetInfo k e.Backend e.Event = PI_EVENT_COMPLETE) :=
        fun h => hc ((hT k e.Backend e.Event).mp h)
      simp [isComplete, h2, h1]
  · refine ⟨(N.MQueue.enumFrom 0).flatMap (fun p => (removePred T p.1 p.2).1),
      ((N.MQueue.enumFrom 0).filter (fun p =>
        decide (T.piEventGetInfo p.1 p.2.Backend p.2.Event = PI_EVENT_COMPLETE))).map
        (fun p => (T, p.1, p.2)), ?_, ?_, ?_⟩
    · rw [hcalls, removeIfErase_calls]
    · rw [effects_of_scan, flatMap_emit_map]
    · rw [List.map_map]
      have hfun : ((fun x : PiTable × Nat × EventInfo => x.2.2)
          ∘ (fun p : Nat × EventInfo => (T, p.1, p.2))) = Prod.snd := rfl
      rw [hfun, enumFrom_filter_snd (fun i => decide (c i.Backend i.Event ≤ j))
        (fun p => decide (T.piEventGetInfo p.1 p.2.Backend p.2.Event = PI_EVENT_COMPLETE))
        (by intro k e; simp only [hT])]
      apply List.filter_congr
      intro i hi
      have := hq i hi
      simp only [decide_eq_decide]
      omega

theorem scans_from (c : backend → pi_event → Nat) (Ts : List PiTable) (j0 : Nat)
    (N : Notifier)
    (hT : ∀ (i : Nat) (T : PiTable), Ts[i]? = some T →
      ∀ (k : Nat) (b : backend) (e : pi_event),
        T.piEventGetInfo k b e = PI_EVENT_COMPLETE ↔ c b e ≤ j0 + i)
    (hq : ∀ i ∈ N.MQueue, j0 ≤ c i.Backend i.Event) :
    (run (Ts.map (Step.poll true)) N).MQueue
      = N.MQueue.filter (fun i => decide (j0 + Ts.length ≤ c i.Backend i.Event)) ∧
    ∃ (X : List Call) (L : List (PiTable × Nat × EventInfo)),
      (run (Ts.map (Step.poll true)) N).Calls = N.Calls ++ X ∧
      X.filter (fun x => !x.isQuery) = L.flatMap emit ∧
      L.map (fun x => x.2.2)
        = (List.range Ts.length).flatMap (fun i =>
            N.MQueue.filter (fun e => decide (c e.Backend e.Event = j0 + i))) := by
  induction Ts generalizing j0 N with
  | nil =>
    refine ⟨?_, [], [], ?_, rfl, rfl⟩
    · simp only [List.map_nil, run_nil, List.length_nil, Nat.add_zero]
      symm
      rw [List.filter_eq_self]
      intro i hi
      simpa using hq i hi
    · simp [run_nil]
  | cons T rest ih =>
    have hT0 : ∀ (k : Nat) (b : backend) (e : pi_event),
        T.piEventGetInfo k b e = PI_EVENT_COMPLETE ↔ c b e ≤ j0 := by
      intro k b e
      simpa using hT 0 T (by simp) k b e
    obtain ⟨hq1, X1, L1, hc1, hx1, hl1⟩ := scan_once c j0 T N hT0 hq
    have hrest : ∀ (i : Nat) (T' : PiTable), rest[i]? = some T' →
        ∀ (k : Nat) (b : backend) (e : pi_event),
          T'.piEventGetInfo k b e = PI_EVENT_COMPLETE ↔ c b e ≤ (j0 + 1) + i := by
      intro i T' hi k b e
      have := hT (i + 1) T' (by simpa using hi) k b e
      rw [this]
      omega
    have hqnext : ∀ i ∈ (workerIteration true T N).MQueue, j0 + 1 ≤ c i.Backend i.Event := by
      intro i hi
      rw [hq1, List.mem_filter] at hi
      simpa using hi.2
    obtain ⟨hq2, X2, L2, hc2, hx2, hl2⟩ := ih (j0 + 1) (workerIteration true T N) hrest hqnext
    have hrun : run ((T :: rest).map (Step.poll true)) N
        = run (rest.map (Step.poll true)) (workerIteration true T N) := rfl
    rw [hrun]
    refine ⟨?_, X1 ++ X2, L1 ++ L2, ?_, ?_, ?_⟩
    · rw [hq2, hq1, List.filter_filter]
      apply List.filter_congr
      intro i _
      rw [Bool.eq_iff_iff]
      simp only [List.length_cons, Bool.and_eq_true, decide_eq_true_eq]
      omega
    · rw [hc2, hc1, List.append_assoc]
    · rw [List.filter_append, hx1, hx2, List.flatMap_append]
    · rw [List.map_append, hl1, hl2, List.length_cons, List.range_succ_eq_map,
        List.flatMap_cons, List.flatMap_map]
      congr 1
      apply List.flatMap_congr
      intro i _
      rw [hq1, List.filter_filter]
      apply List.filter_congr
      intro e _
      rw [Bool.eq_iff_iff]
      simp only [Function.comp, Nat.succ_eq_add_one, Bool.and_eq_true, decide_eq_true_eq]
      omega

theorem by_time_sorted (c : backend → pi_event → Nat) (q : List EventInfo) (n : Nat)
    (hone : ∀ j : Nat, (q.filter (fun e => decide (c e.Backend e.Event = j))).length ≤ 1) :
    ((List.range n).flatMap (fun j =>
        q.filter (fun e => decide (c e.Backend e.Event = j)))).Pairwise
      (fun x y => c x.Backend x.Event < c y.Backend y.Event) := by
  rw [List.pairwise_flatMap]
  constructor
  · intro j _
    have h := hone j
    rcases hl : q.filter (fun e => decide (c e.Backend e.Event = j)) with _ | ⟨x, _ | ⟨y, l⟩⟩
    · show List.Pairwise _ (q.filter (fun e => decide (c e.Backend e.Event = j)))
      rw [hl]
      exact List.Pairwise.nil
    · show List.Pairwise _ (q.filter (fun e => decide (c e.Backend e.Event = j)))
      rw [hl]
      exact List.pairwise_singleton _ _
    · rw [hl] at h
      simp at h
  · apply (List.pairwise_lt_range n).imp
    intro a b hab x hx y hy
    rw [List.mem_filter] at hx hy
    have hx2 : c x.Backend x.Event = a := by simpa using hx.2
    have hy2 : c y.Backend y.Event = b := by simpa using hy.2
    omega

theorem three_operations (b : backend) (h1 h2 h3 : pi_event) (T1 T2 T3 : PiTable)
    (s12 : ∀ k, T1.piEventGetInfo k b h2 = PI_EVENT_COMPLETE)
    (s11 : ∀ k, T1.piEventGetInfo k b h1 ≠ PI_EVENT_COMPLETE)
    (s13 : ∀ k, T1.piEventGetInfo k b h3 ≠ PI_EVENT_COMPLETE)
    (s21 : ∀ k, T2.piEventGetInfo k b h1 = PI_EVENT_COMPLETE)
    (s23 : ∀ k, T2.piEventGetInfo k b h3 ≠ PI_EVENT_COMPLETE)
    (s33 : ∀ k, T3.piEventGetInfo k b h3 = PI_EVENT_COMPLETE) :
    (run [Step.enqueue true b PI_SUCCESS h1, Step.enqueue true b PI_SUCCESS h2,
          Step.enqueue true b PI_SUCCESS h3, Step.poll true T1] Notifier.init).MQueue
      = [⟨b, h1, none⟩, ⟨b, h3, none⟩] ∧
    (run [Step.enqueue true b PI_SUCCESS h1, Step.enqueue true b PI_SUCCESS h2,
          Step.enqueue true b PI_SUCCESS h3, Step.poll true T1, Step.poll true T2]
        Notifier.init).MQueue
      = [⟨b, h3, none⟩] ∧
    (run [Step.enqueue true b PI_SUCCESS h1, Step.enqueue true b PI_SUCCESS h2,
          Step.enqueue true b PI_SUCCESS h3, Step.poll true T1, Step.poll true T2,
          Step.poll true T3] Notifier.init).MQueue = [] ∧
    (run [Step.enqueue true b PI_SUCCESS h1, Step.enqueue true b PI_SUCCESS h2,
          Step.enqueue true b PI_SUCCESS h3, Step.poll true T1, Step.poll true T2,
          Step.poll true T3] Notifier.init).Calls.filter (fun x => !x.isQuery)
      = [Call.retain b h1, Call.retain b h2, Call.retain b h3,
         Call.notify (makeTraceEvent T1 1 ⟨b, h2, none⟩), Call.release b h2,
         Call.notify (makeTraceEvent T2 0 ⟨b, h1, none⟩), Call.release b h1,
         Call.notify (makeTraceEvent T3 0 ⟨b, h3, none⟩), Call.release b h3] := by
  refine ⟨?_, ?_, ?_, ?_⟩ <;>
    simp [run, Step.apply, piEnqueueKernelLaunch, workerIteration, removeIfErase, removePred,
      Notifier.init, Call.isQuery, s12, s11, s13, s21, s23, s33]

/-- C14: after three successful traced calls of the wrapper on one backend
(operations 1, 2, 3), when the first pass of the worker finds only operation
2 complete, the second finds operation 1 complete and not 3, and the third
finds operation 3 complete, the worker emits the trace events of operations
2, 1, 3 in that order, each once and each followed at once by the release of
that operation's handle, and the queue is empty after the third pass.  In
general, when a handle is complete from pass `c` on and no two entries of the
queue have the same `c`, the passes leave the entries not yet complete, and
each pass emits (notification, then release) the entry that became complete
for it: the emissions are in the order of completion. -/
theorem emission_in_completion_order :
    (∀ (b : backend) (h1 h2 h3 : pi_event) (T1 T2 T3 : PiTable),
      (∀ k, T1.piEventGetInfo k b h2 = PI_EVENT_COMPLETE) →
      (∀ k, T1.piEventGetInfo k b h1 ≠ PI_EVENT_COMPLETE) →
      (∀ k, T1.piEventGetInfo k b h3 ≠ PI_EVENT_COMPLETE) →
      (∀ k, T2.piEventGetInfo k b h1 = PI_EVENT_COMPLETE) →
      (∀ k, T2.piEventGetInfo k b h3 ≠ PI_EVENT_COMPLETE) →
      (∀ k, T3.piEventGetInfo k b h3 = PI_EVENT_COMPLETE) →
      (run [Step.enqueue true b PI_SUCCESS h1, Step.enqueue true b PI_SUCCESS h2,
            Step.enqueue true b PI_SUCCESS h3, Step.poll true T1, Step.poll true T2,
            Step.poll true T3] Notifier.init).MQueue = [] ∧
      (run [Step.enqueue true b PI_SUCCESS h1, Step.enqueue true b PI_SUCCESS h2,
            Step.enqueue true b PI_SUCCESS h3, Step.poll true T1, Step.poll true T2,
            Step.poll true T3] Notifier.init).Calls.filter (fun x => !x.isQuery)
        = [Call.retain b h1, Call.retain b h2, Call.retain b h3,
           Call.notify (makeTraceEvent T1 1 ⟨b, h2, none⟩), Call.release b h2,
           Call.notify (makeTraceEvent T2 0 ⟨b, h1, none⟩), Call.release b h1,
           Call.notify (makeTraceEvent T3 0 ⟨b, h3, none⟩), Call.release b h3]) ∧
    (∀ (c : backend → pi_event → Nat) (Ts : List PiTable) (N : Notifier),
      (∀ (j : Nat) (T : PiTable), Ts[j]? = some T →
        ∀ (k : Nat) (b : backend) (e : pi_event),
          T.piEventGetInfo k b e = PI_EVENT_COMPLETE ↔ c b e ≤ j) →
      (∀ j : Nat,
        (N.MQueue.filter (fun e => decide (c e.Backend e.Event = j))).length ≤ 1) →
      (run (Ts.map (Step.poll true)) N).MQueue
        = N.MQueue.filter (fun e => decide (Ts.length ≤ c e.Backend e.Event)) ∧
      ∃ L : List (PiTable × Nat × EventInfo),
        ((run (Ts.map (Step.poll true)) N).Calls.drop N.Calls.length).filter
            (fun x => !x.isQuery)
          = L.flatMap emit ∧
        L.map (fun x => x.2.2)
          = (List.range Ts.length).flatMap (fun j =>
              N.MQueue.filter (fun e => decide (c e.Backend e.Event = j))) ∧
        (L.map (fun x => x.2.2)).Pairwise
          (fun x y => c x.Backend x.Event < c y.Backend y.Event)) := by
  constructor
  · intro b h1 h2 h3 T1 T2 T3 s12 s11 s13 s21 s23 s33
    obtain ⟨_, _, hq, hc⟩ := three_operations b h1 h2 h3 T1 T2 T3 s12 s11 s13 s21 s23 s33
    exact ⟨hq, hc⟩
  · intro c Ts N hT hone
    obtain ⟨hq, X, L, hc, hx, hl⟩ := scans_from c Ts 0 N
      (by intro i T hi k b e; rw [Nat.zero_add]; exact hT i T hi k b e)
      (fun _ _ => Nat.zero_le _)
    refine ⟨?_, L, ?_, ?_, ?_⟩
    · rw [hq]
      simp only [Nat.zero_add]
    · rw [hc, List.drop_left]
      exact hx
    · rw [hl]
      simp only [Nat.zero_add]
    · rw [hl]
      simp only [Nat.zero_add]
      exact by_time_sorted c N.MQueue Ts.length hone

theorem emission_in_completion_order_witness :
    (run [Step.enqueue true backend.opencl PI_SUCCESS 1,
          Step.enqueue true backend.opencl PI_SUCCESS 2,
          Step.enqueue true backend.opencl PI_SUCCESS 3,
          Step.poll true ⟨fun _ _ e => if e = 2 then PI_EVENT_COMPLETE else 1,
            fun _ _ _ _ t => t⟩,
          Step.poll true ⟨fun _ _ e => if e = 3 then 1 else PI_EVENT_COMPLETE,
            fun _ _ _ _ t => t⟩,
          Step.poll true ⟨fun _ _ _ => PI_EVENT_COMPLETE, fun _ _ _ _ t => t⟩]
        Notifier.init).MQueue = [] :=
  (emission_in_completion_order.1 backend.opencl 1 2 3
    ⟨fun _ _ e => if e = 2 then PI_EVENT_COMPLETE else 1, fun _ _ _ _ t => t⟩
    ⟨fun _ _ e => if e = 3 then 1 else PI_EVENT_COMPLETE, fun _ _ _ _ t => t⟩
    ⟨fun _ _ _ => PI_EVENT_COMPLETE, fun _ _ _ _ t => t⟩
    (fun _ => by simp) (fun _ => by simp [PI_EVENT_COMPLETE])
    (fun _ => by simp [PI_EVENT_COMPLETE]) (fun _ => by simp)
    (fun _ => by simp [PI_EVENT_COMPLETE]) (fun _ => by simp)).1

/-! ## The launcher's modes -/

theorem enableModes_never_cuda (Modes : List ModeKind) (NewEnv : List String) :
    "SYCL_TRACE_CU_ENABLE=1" ∈ enableModes Modes NewEnv ↔ "SYCL_TRACE_CU_ENABLE=1" ∈ NewEnv := by
  induction Modes generalizing NewEnv with
  | nil => rfl
  | cons Mode rest ih =>
    cases Mode <;> simp [enableModes, ih, EnablePITrace, EnableZETrace]

/-- C16, on the code: selecting the mode `cuda` alone gives the target the
Level Zero variables and not `SYCL_TRACE_CU_ENABLE=1` nor
`SYCL_PI_CUDA_ENABLE_TRACING=1`: the table of `Modes` gives `cuda` the value
`ZE`, and the `switch` calls `EnableZETrace` for `CU` as well. -/
theorem cuda_mode_enables_level_zero :
    newEnv [] [ModeName.cuda.value] PrintFormatKind.PRETTY_COMPACT LogLevelKinds.LOG_ERR []
      = ["XPTI_FRAMEWORK_DISPATCHER=libxptifw.so",
         "XPTI_SUBSCRIBERS=libsycl_pi_trace_collector.so", "XPTI_TRACE_ENABLE=1",
         "SYCL_TRACE_ZE_ENABLE=1", "SYCL_PI_LEVEL_ZERO_ENABLE_TRACING=1",
         "ZE_ENABLE_TRACING_LAYER=1", "SYCL_TRACE_PRINT_FORMAT=compact",
         "SYCL_TRACE_LOG_LEVEL=err", "SYCL_TRACE_LOG_MASK=1111"] ∧
    "SYCL_TRACE_ZE_ENABLE=1"
      ∈ newEnv [] [ModeName.cuda.value] PrintFormatKind.PRETTY_COMPACT LogLevelKinds.LOG_ERR [] ∧
    "SYCL_TRACE_CU_ENABLE=1"
      ∉ newEnv [] [ModeName.cuda.value] PrintFormatKind.PRETTY_COMPACT LogLevelKinds.LOG_ERR [] ∧
    "SYCL_PI_CUDA_ENABLE_TRACING=1"
      ∉ newEnv [] [ModeName.cuda.value] PrintFormatKind.PRETTY_COMPACT LogLevelKinds.LOG_ERR []
      := by
  decide

/-! ## The log mask from the launcher to the collector -/

theorem foldl_bits_testBit (D : List LogDomainKinds) (acc i : Nat) :
    (D.foldl (fun bits d => bits ||| (1 <<< d.val)) acc).testBit i
      = (acc.testBit i || decide (∃ d ∈ D, d.val = i)) := by
  induction D generalizing acc with
  | nil => simp
  | cons d rest ih =>
    rw [List.foldl_cons, ih, Nat.testBit_or, Nat.one_shiftLeft, Nat.testBit_two_pow]
    by_cases h1 : d.val = i
    · simp [h1]
    · by_cases h2 : ∃ x ∈ rest, x.val = i
      · have h3 : ∃ x ∈ d :: rest, x.val = i := by
          obtain ⟨x, hx, hxi⟩ := h2
          exact ⟨x, List.mem_cons_of_mem _ hx, hxi⟩
        simp [h1, h2, h3]
      · have h3 : ¬ ∃ x ∈ d :: rest, x.val = i := by
          rintro ⟨x, hx, hxi⟩
          rcases List.mem_cons.mp hx with h | h
          · exact h1 (h ▸ hxi)
          · exact h2 ⟨x, h, hxi⟩
        simp [h1, h2, h3]

theorem getBits_testBit (D : List LogDomainKinds) (i : Nat) :
    (getBits D).testBit i = decide (∃ d ∈ D, d.val = i) := by
  unfold getBits
  rw [foldl_bits_testBit]
  simp

theorem val_lt_four (d : LogDomainKinds) : d.val < 4 := by
  cases d <;> decide

theorem val_injective (d e : LogDomainKinds) (h : d.val = e.val) : d = e := by
  cases d <;> cases e <;> first | rfl | (exact absurd h (by decide))

theorem getBits_lt (D : List LogDomainKinds) : getBits D < 16 := by
  have h : getBits D < 2 ^ 4 := by
    apply Nat.lt_pow_two_of_testBit
    intro i hi
    rw [getBits_testBit]
    apply decide_eq_false
    rintro ⟨d, _, hd⟩
    have := val_lt_four d
    omega
  simpa using h

theorem getBits_eq_zero (D : List LogDomainKinds) : getBits D = 0 ↔ D = [] := by
  constructor
  · intro h
    cases D with
    | nil => rfl
    | cons d rest =>
      have h1 := getBits_testBit (d :: rest) d.val
      rw [h, Nat.zero_testBit] at h1
      have h2 : ∃ x ∈ d :: rest, x.val = d.val := ⟨d, List.mem_cons_self _ _, rfl⟩
      simp [h2] at h1
  · intro h
    subst h
    rfl

theorem bitset4_round_trip (v : Nat) (hv : v < 16) :
    bitset4.ofString (bitset4.to_string (bitset4.ofValue v)) = some v := by
  have h : ∀ w : Fin 16,
      bitset4.ofString (bitset4.to_string (bitset4.ofValue w.val)) = some w.val := by
    decide
  exact h ⟨v, hv⟩

theorem scanMetadata_isSome (B : bitset4) (items : List MetadataItem) (name : String)
    (hd hn : Bool) (hno : ∀ x ∈ items, x.Name ≠ "domain") :
    (scanMetadata B items name hd hn).isSome = true := by
  induction items generalizing name hd hn with
  | nil => rfl
  | cons Item rest ih =>
    have h1 : Item.Name ≠ "domain" := hno Item (List.mem_cons_self _ _)
    have hrest : ∀ x ∈ rest, x.Name ≠ "domain" := fun x hx => hno x (List.mem_cons_of_mem _ hx)
    unfold scanMetadata
    rw [if_neg h1]
    split
    · split
      · rfl
      · exact ih _ _ _ hrest
    · split
      · rfl
      · exact ih _ _ _ hrest

theorem scanMetadata_domain (B : bitset4) (pre post : List MetadataItem) (dom : MetadataItem)
    (name : String) (hn : Bool) (hdom : dom.Name = "domain")
    (hpre : ∀ x ∈ pre, x.Name ≠ "domain") (hpost : ∀ x ∈ post, x.Name ≠ "domain") :
    (scanMetadata B (pre ++ dom :: post) name false hn = none) ↔ B.get dom.DomainID = false := by
  induction pre generalizing name hn with
  | nil =>
    rw [List.nil_append]
    unfold scanMetadata
    rw [if_pos hdom]
    by_cases hb : B.get dom.DomainID = true
    · have hsome := scanMetadata_isSome B post name true hn hpost
      cases hn
      · simp only [hb, Bool.not_true, Bool.false_eq_true, if_false, Bool.and_false]
        constructor
        · intro h
          rw [h] at hsome
          cases hsome
        · intro h
          cases h
      · simp [hb]
    · have hb' : B.get dom.DomainID = false := by simpa using hb
      simp [hb']
  | cons Item rest ih =>
    have h1 : Item.Name ≠ "domain" := hpre Item (List.mem_cons_self _ _)
    have hrest : ∀ x ∈ rest, x.Name ≠ "domain" :=
      fun x hx => hpre x (List.mem_cons_of_mem _ hx)
    rw [List.cons_append]
    unfold scanMetadata
    rw [if_neg h1]
    by_cases h2 : Item.Name = "domain_name"
    · rw [if_pos h2]
      simp only [Bool.false_and, Bool.false_eq_true, if_false]
      exact ih _ _ hrest
    · rw [if_neg h2]
      simp only [Bool.false_and, Bool.false_eq_true, if_false]
      exact ih _ _ hrest

theorem logMask_read (D : List LogDomainKinds) :
    bitset4.ofString (logMask D) = some (if getBits D = 0 then 15 else getBits D) := by
  unfold logMask
  apply bitset4_round_trip
  by_cases h : getBits D = 0
  · rw [if_pos h]
    decide
  · rw [if_neg h]
    exact getBits_lt D

theorem mask_get (D : List LogDomainKinds) (d : LogDomainKinds) :
    bitset4.get (if getBits D = 0 then 15 else getBits D) d.val = decide (D = [] ∨ d ∈ D) := by
  by_cases h : getBits D = 0
  · have hD : D = [] := (getBits_eq_zero D).mp h
    rw [if_pos h]
    subst hD
    cases d <;> decide
  · have hD : D ≠ [] := fun hD => h ((getBits_eq_zero D).mpr hD)
    rw [if_neg h]
    unfold bitset4.get
    rw [getBits_testBit]
    by_cases hm : d ∈ D
    · have h1 : ∃ x ∈ D, x.val = d.val := ⟨d, hm, rfl⟩
      simp [h1, hm]
    · have h1 : ¬ ∃ x ∈ D, x.val = d.val := by
        rintro ⟨x, hx, hxd⟩
        exact hm (val_injective x d hxd ▸ hx)
      simp [h1, hm, hD]

/-- C17, as stated, fails: with the domain `scheduler` selected the collector
reads the set with bit 2, and at the level `err` (the launcher's default) it
still drops an info event tagged with the domain `scheduler`: the level test
of `logCallback` returns before the domain is looked at. -/
theorem info_event_dropped_below_level :
    LogDomainKinds.LOG_SCHEDULER ∈ [LogDomainKinds.LOG_SCHEDULER] ∧
    readLogMask (some (logMask [LogDomainKinds.LOG_SCHEDULER])) 0 = some 4 ∧
    logCallback 4 CollectorLogLevel.Error LogEventType.LogInfoT
      [⟨"domain", LogDomainKinds.LOG_SCHEDULER.val, ""⟩] = none ∧
    ¬ (logCallback 4 CollectorLogLevel.Error LogEventType.LogInfoT
        [⟨"domain", LogDomainKinds.LOG_SCHEDULER.val, ""⟩] = none
      ↔ [LogDomainKinds.LOG_SCHEDULER] ≠ []
        ∧ LogDomainKinds.LOG_SCHEDULER ∉ [LogDomainKinds.LOG_SCHEDULER]) := by
  decide

/-- C17 (amended): for every selection `D` of log domains, the text the
launcher writes after `SYCL_TRACE_LOG_MASK=` has four characters, the
collector reads it without an exception, and in the set it reads the bit of a
domain `d` is set exactly when `D` is empty or `d` is in `D`; so the loop of
`logCallback` over the metadata of an event that has the one item `domain`,
with value `d`, returns from the callback (the event is dropped) exactly when
`D` is not empty and `d` is not in `D`, and so does `logCallback` as a whole
for an event that the level test before the loop lets through; an info event
below the level `info` and a warning below the level `warn` are dropped by
that test whatever their domain. -/
theorem log_mask_round_trip (D : List LogDomainKinds) :
    (logMask D).length = 4 ∧
    ∃ B : bitset4,
      (∀ LogDomains : bitset4, readLogMask (some (logMask D)) LogDomains = some B) ∧
      (∀ d : LogDomainKinds, B.get d.val = decide (D = [] ∨ d ∈ D)) ∧
      (∀ (pre post : List MetadataItem) (dom : MetadataItem) (d : LogDomainKinds)
          (DomainName : String) (HasDomainName : Bool),
        dom.Name = "domain" → dom.DomainID = d.val →
        (∀ x ∈ pre, x.Name ≠ "domain") → (∀ x ∈ post, x.Name ≠ "domain") →
        (scanMetadata B (pre ++ dom :: post) DomainName false HasDomainName = none
          ↔ D ≠ [] ∧ d ∉ D)) ∧
      (∀ (LogLevel : CollectorLogLevel) (event_type : LogEventType)
          (pre post : List MetadataItem) (dom : MetadataItem) (d : LogDomainKinds),
        dom.Name = "domain" → dom.DomainID = d.val →
        (∀ x ∈ pre, x.Name ≠ "domain") → (∀ x ∈ post, x.Name ≠ "domain") →
        ¬ (event_type = LogEventType.LogInfoT ∧ LogLevel.val < CollectorLogLevel.Info.val) →
        ¬ (event_type = LogEventType.LogWarnT
            ∧ LogLevel.val < CollectorLogLevel.Warning.val) →
        (logCallback B LogLevel event_type (pre ++ dom :: post) = none ↔ D ≠ [] ∧ d ∉ D)) ∧
      (∀ (LogLevel : CollectorLogLevel) (event_type : LogEventType)
          (Metadata : List MetadataItem),
        (event_type = LogEventType.LogInfoT ∧ LogLevel.val < CollectorLogLevel.Info.val) ∨
        (event_type = LogEventType.LogWarnT
          ∧ LogLevel.val < CollectorLogLevel.Warning.val) →
        logCallback B LogLevel event_type Metadata = none) := by
  refine ⟨by simp [logMask, bitset4.to_string],
    if getBits D = 0 then 15 else getBits D, fun _ => logMask_read D, mask_get D, ?_, ?_, ?_⟩
  · intro pre post dom d DomainName HasDomainName hname hid hpre hpost
    rw [scanMetadata_domain _ pre post dom _ _ hname hpre hpost, hid, mask_get D d]
    simp only [decide_eq_false_iff_not, not_or]
  · intro LogLevel event_type pre post dom d hname hid hpre hpost hinfo hwarn
    unfold logCallback
    rw [if_neg hinfo, if_neg hwarn, scanMetadata_domain _ pre post dom _ _ hname hpre hpost,
      hid, mask_get D d]
    simp only [decide_eq_false_iff_not, not_or]
  · intro LogLevel event_type Metadata hlevel
    unfold logCallback
    rcases hlevel with h | h
    · rw [if_pos h]
    · by_cases hinfo : event_type = LogEventType.LogInfoT
          ∧ LogLevel.val < CollectorLogLevel.Info.val
      · rw [if_pos hinfo]
      · rw [if_neg hinfo, if_pos h]

theorem log_mask_round_trip_witness :
    ∃ B : bitset4,
      readLogMask (some (logMask [LogDomainKinds.LOG_SCHEDULER])) 0 = some B ∧
      logCallback B CollectorLogLevel.Error LogEventType.LogErrorT
        ([⟨"domain_name", 0, "device"⟩] ++ ⟨"domain", 3, ""⟩ :: []) = none :=
  match log_mask_round_trip [LogDomainKinds.LOG_SCHEDULER] with
  | ⟨_, B, hread, _, _, hdrop, _⟩ =>
    ⟨B, hread 0,
      (hdrop CollectorLogLevel.Error LogEventType.LogErrorT [⟨"domain_name", 0, "device"⟩] []
        ⟨"domain", 3, ""⟩ LogDomainKinds.LOG_DEVICE rfl rfl (by decide) (by decide)
        (by decide) (by decide)).mpr (by decide)⟩

end SyclXpti
